import Mathlib

/-!
Shallow embedding of the tlx fixed-capacity bitarray (`tlx/bitarray.hpp`),
the signed/unsigned integer rank bijection (`tlx/math/integer_rank.hpp`)
and the full-width unsigned multiplication (`tlx/math/full_mul.hpp`),
together with proofs of the specification claims.

Machine words are modelled as `Nat` with explicit bounds (`flags < 2 ^ w`);
fallible paths do not occur (all operations are total under the stated
preconditions, exactly as in the C++ sources).
-/

namespace Tlx

/-- Modelled from the spec: `ceil_log2(n)` (the header `tlx/meta/log2.hpp`
providing `Log2<Size>::ceil` is not part of the sources given).  Fueled
structural recursion computing the ceiling of the base-2 logarithm via
`clog2 n = 1 + clog2 (ceil (n / 2))` for `n ≥ 2`. -/
def clog2F : Nat → Nat → Nat
  | 0, _ => 0
  | fuel + 1, n => if n ≤ 1 then 0 else clog2F fuel ((n + 1) / 2) + 1

/-- `clog2 n = ⌈log₂ n⌉` for `n ≥ 1` (and `0` for `n ≤ 1`). -/
def clog2 (n : Nat) : Nat := clog2F n n

theorem clog2F_fuel_irrel (fuel fuel' n : Nat) (h : n ≤ fuel) (h' : n ≤ fuel') :
    clog2F fuel n = clog2F fuel' n := by
  induction fuel using Nat.strong_induction_on generalizing fuel' n with
  | _ fuel IH =>
    match fuel, fuel' with
    | 0, f' =>
      interval_cases n
      cases f' <;> simp [clog2F]
    | f + 1, 0 =>
      interval_cases n
      simp [clog2F]
    | f + 1, f' + 1 =>
      simp only [clog2F]
      by_cases h1 : n ≤ 1
      · simp [h1]
      · simp only [h1, if_false]
        have hrec : (n + 1) / 2 ≤ f := by omega
        have hrec' : (n + 1) / 2 ≤ f' := by omega
        rw [IH f (by omega) f' _ hrec hrec']

theorem clog2_eq_clog (n : Nat) : clog2 n = Nat.clog 2 n := by
  induction n using Nat.strong_induction_on with
  | _ n IH =>
    by_cases h1 : n ≤ 1
    · interval_cases n <;> simp [clog2, clog2F, Nat.clog]
    · have h2 : 2 ≤ n := by omega
      have hhalf : (n + 1) / 2 < n := by omega
      rw [Nat.clog_of_two_le (by omega) h2]
      have heq : (n + 2 - 1) / 2 = (n + 1) / 2 := by omega
      rw [heq, ← IH _ hhalf]
      show clog2F n n = clog2 ((n + 1) / 2) + 1
      unfold clog2
      cases n with
      | zero => omega
      | succ m =>
        simp only [clog2F, show ¬ (m + 1 ≤ 1) from by omega, if_false,
          Nat.add_right_cancel_iff]
        exact clog2F_fuel_irrel m ((m + 1 + 1) / 2) ((m + 1 + 1) / 2) (by omega) (by omega)

/-- `n ≤ 2 ^ clog2 n` for all `n`. -/
theorem le_two_pow_clog2 (n : Nat) : n ≤ 2 ^ clog2 n := by
  rw [clog2_eq_clog]
  exact Nat.le_pow_clog (by omega) n

/-- `2 ^ (clog2 n - 1) < n` for `n ≥ 2`: `clog2` is the exact ceiling. -/
theorem two_pow_clog2_pred_lt (n : Nat) (h : 2 ≤ n) : 2 ^ (clog2 n - 1) < n := by
  rw [clog2_eq_clog]
  exact Nat.pow_pred_clog_lt_self (by omega) (by omega)

theorem clog2_le_iff (n m : Nat) : clog2 n ≤ m ↔ n ≤ 2 ^ m := by
  rw [clog2_eq_clog]
  exact (Nat.le_pow_iff_clog_le (by omega)).symm

/-- Modelled from the spec: `ceil_div(a, b)` (the header `tlx/math/div_ceil.hpp`
is not part of the sources given): divide rounding up. -/
def div_ceil (a b : Nat) : Nat := (a + b - 1) / b

theorem div_ceil_spec (a b : Nat) (hb : 0 < b) :
    a ≤ b * div_ceil a b ∧ (0 < a → b * (div_ceil a b - 1) < a) := by
  unfold div_ceil
  have hmod : (a + b - 1) % b + b * ((a + b - 1) / b) = a + b - 1 :=
    Nat.mod_add_div (a + b - 1) b
  have hmlt : (a + b - 1) % b < b := Nat.mod_lt _ hb
  constructor
  · rcases Nat.eq_zero_or_pos a with rfl | ha
    · simp
    · omega
  · intro ha
    have hq : 1 ≤ (a + b - 1) / b := by
      rcases Nat.eq_zero_or_pos ((a + b - 1) / b) with hz | hp
      · rw [hz] at hmod; omega
      · exact hp
    have hsub : b * ((a + b - 1) / b - 1) + b * 1 = b * ((a + b - 1) / b) := by
      rw [← Nat.mul_add]
      congr 1
      omega
    omega

/-- Modelled from the spec: `find_first_set_bit(word)` (the header
`tlx/math/ffs.hpp` is not part of the sources given): returns the
1-based index of the least-significant set bit, and `0` on input `0`. -/
def ffsF : Nat → Nat → Nat
  | 0, _ => 0
  | fuel + 1, n =>
    if n = 0 then 0
    else if n % 2 = 1 then 1
    else ffsF fuel (n / 2) + 1

def ffs (n : Nat) : Nat := ffsF n n

theorem ffsF_fuel_irrel (fuel fuel' n : Nat) (h : n ≤ fuel) (h' : n ≤ fuel') :
    ffsF fuel n = ffsF fuel' n := by
  induction fuel using Nat.strong_induction_on generalizing fuel' n with
  | _ fuel IH =>
    match fuel, fuel' with
    | 0, f' =>
      interval_cases n
      cases f' <;> simp [ffsF]
    | f + 1, 0 =>
      interval_cases n
      simp [ffsF]
    | f + 1, f' + 1 =>
      simp only [ffsF]
      by_cases h0 : n = 0
      · simp [h0]
      · simp only [h0, if_false]
        by_cases h1 : n % 2 = 1
        · simp [h1]
        · simp only [h1, if_false, Nat.add_right_cancel_iff]
          exact IH f (by omega) f' _ (by omega) (by omega)

theorem ffs_rec (n : Nat) (h0 : n ≠ 0) (h1 : n % 2 = 0) : ffs n = ffs (n / 2) + 1 := by
  unfold ffs
  cases n with
  | zero => omega
  | succ m =>
    simp only [ffsF, Nat.succ_ne_zero, if_false, show (m + 1) % 2 ≠ 1 from by omega,
      if_neg, Nat.add_right_cancel_iff]
    exact ffsF_fuel_irrel m ((m + 1) / 2) ((m + 1) / 2) (by omega) (by omega)

theorem ffs_odd (n : Nat) (h1 : n % 2 = 1) : ffs n = 1 := by
  unfold ffs
  cases n with
  | zero => omega
  | succ m => simp [ffsF, h1]

theorem ffs_pos (n : Nat) (h : n ≠ 0) : 1 ≤ ffs n := by
  induction n using Nat.strong_induction_on with
  | _ n IH =>
    by_cases h1 : n % 2 = 1
    · rw [ffs_odd n h1]
    · rw [ffs_rec n h (by omega)]
      omega

/-- The characteristic property of `ffs`: on a non-zero word it returns one plus
the index of the least-significant set bit. -/
theorem ffs_spec (n : Nat) (h : n ≠ 0) :
    n.testBit (ffs n - 1) = true ∧ ∀ j, j < ffs n - 1 → n.testBit j = false := by
  induction n using Nat.strong_induction_on with
  | _ n IH =>
    by_cases h1 : n % 2 = 1
    · rw [ffs_odd n h1]
      refine ⟨by simp [Nat.testBit_zero]; omega, ?_⟩
      intro j hj
      omega
    · have h2 : n % 2 = 0 := by omega
      have hhalf : n / 2 ≠ 0 := by omega
      have hlt : n / 2 < n := by omega
      rw [ffs_rec n h h2]
      obtain ⟨ih1, ih2⟩ := IH (n / 2) hlt hhalf
      have hpos : 1 ≤ ffs (n / 2) := ffs_pos (n / 2) hhalf
      constructor
      · have : ffs (n / 2) + 1 - 1 = (ffs (n / 2) - 1) + 1 := by omega
        rw [this, Nat.testBit_succ]
        exact ih1
      · intro j hj
        cases j with
        | zero => simp [Nat.testBit_zero]; omega
        | succ i =>
          rw [Nat.testBit_succ]
          exact ih2 i (by omega)

/-! ### Shape selection (`bitarray_recursive<Size, false>`, lines 36-49) -/

/-- `static constexpr size_t leaf_width = 6;` -/
def leaf_width : Nat := 6

/-- `static constexpr size_t width = tlx::Log2<Size>::ceil;` -/
def width (s : Nat) : Nat := clog2 s

/-- `root_width = (width % leaf_width) ? (width % leaf_width) : leaf_width;` -/
def root_width (s : Nat) : Nat :=
  if width s % leaf_width ≠ 0 then width s % leaf_width else leaf_width

/-- `static constexpr size_t child_width = width - root_width;` -/
def child_width (s : Nat) : Nat := width s - root_width s

/-- `child_type = bitarray_recursive<1llu << child_width, child_width <= 6>`:
the capacity of each child. -/
def child_size (s : Nat) : Nat := 2 ^ child_width s

/-- `static constexpr size_t root_size = div_ceil(Size, child_type::size);` -/
def root_size (s : Nat) : Nat := div_ceil s (child_size s)

/-- `root_type = bitarray_recursive<root_size <= 32 ? 32 : 64, true>`:
the declared capacity of the summary node (always a leaf). -/
def root_cap (rs : Nat) : Nat := if rs ≤ 32 then 32 else 64

/-- `uint_type = std::conditional<Size <= 32, uint32_t, uint64_t>`:
the bit width of the word backing a leaf of capacity `s`. -/
def uint_width (s : Nat) : Nat := if s ≤ 32 then 32 else 64

theorem uint_width_root_cap (rs : Nat) : uint_width (root_cap rs) = root_cap rs := by
  unfold uint_width root_cap
  by_cases h : rs ≤ 32 <;> simp [h]

/-- The recursive node structure selected for a capacity: a `leaf` stores the
capacity of its word, an `inner` node stores the overall capacity, the shape
shared by all its children, and the number of children (`root_size`). -/
inductive Shape where
  | leaf (size : Nat)
  | inner (size : Nat) (childShape : Shape) (rootSize : Nat)
deriving DecidableEq

def Shape.size : Shape → Nat
  | .leaf s => s
  | .inner s _ _ => s

theorem child_size_pos (s : Nat) : 1 ≤ child_size s := Nat.one_le_two_pow

theorem width_ge_seven (s : Nat) (h : 64 < s) : 7 ≤ width s := by
  by_contra hc
  have h6 : clog2 s ≤ 6 := by unfold width at hc; omega
  have := (clog2_le_iff s 6).mp h6
  norm_num at this
  omega

theorem root_width_bounds (s : Nat) : 1 ≤ root_width s ∧ root_width s ≤ leaf_width := by
  unfold root_width leaf_width
  by_cases h : width s % 6 ≠ 0
  · rw [if_pos h]
    omega
  · rw [if_neg h]
    omega

theorem child_size_lt (s : Nat) (h : 64 < s) : child_size s < s := by
  obtain ⟨h1, _⟩ := root_width_bounds s
  have h7 := width_ge_seven s h
  have hle : child_width s ≤ width s - 1 := by unfold child_width; omega
  calc child_size s = 2 ^ child_width s := rfl
    _ ≤ 2 ^ (width s - 1) := Nat.pow_le_pow_right (by omega) hle
    _ < s := two_pow_clog2_pred_lt s (by omega)

/-- `bitarray<Size>` / `bitarray_recursive` compile-time shape selection
(`Size <= 64` picks the leaf implementation), with fuel. -/
def shapeOfF : Nat → Nat → Shape
  | 0, s => .leaf s
  | fuel + 1, s =>
    if s ≤ 64 then .leaf s
    else .inner s (shapeOfF fuel (child_size s)) (root_size s)

def shapeOf (s : Nat) : Shape := shapeOfF s s

theorem shapeOfF_fuel_irrel (fuel fuel' s : Nat) (h : s ≤ fuel) (h' : s ≤ fuel') :
    shapeOfF fuel s = shapeOfF fuel' s := by
  induction fuel using Nat.strong_induction_on generalizing fuel' s with
  | _ fuel IH =>
    match fuel, fuel' with
    | 0, f' =>
      interval_cases s
      cases f' <;> simp [shapeOfF]
    | f + 1, 0 =>
      interval_cases s
      simp [shapeOfF]
    | f + 1, f' + 1 =>
      simp only [shapeOfF]
      by_cases h64 : s ≤ 64
      · simp [h64]
      · simp only [h64, if_false, Shape.inner.injEq, true_and, and_true]
        have hlt : child_size s < s := child_size_lt s (by omega)
        exact IH f (by omega) f' _ (by omega) (by omega)

theorem shapeOf_leaf (s : Nat) (h : s ≤ 64) : shapeOf s = .leaf s := by
  unfold shapeOf
  cases s with
  | zero => simp [shapeOfF]
  | succ m => simp [shapeOfF, h]

theorem shapeOf_inner (s : Nat) (h : 64 < s) :
    shapeOf s = .inner s (shapeOf (child_size s)) (root_size s) := by
  unfold shapeOf
  cases s with
  | zero => omega
  | succ m =>
    simp only [shapeOfF, show ¬ (m + 1 ≤ 64) from by omega, if_false,
      Shape.inner.injEq, true_and, and_true]
    have hlt : child_size (m + 1) < m + 1 := child_size_lt (m + 1) h
    exact shapeOfF_fuel_irrel m (child_size (m + 1)) (child_size (m + 1)) (by omega) (by omega)

/-! ### Node states (`bitarray_recursive`, both variants)

A leaf state is its machine word `flags_`; an inner state is the list of
child states `children_` together with the word `root_` of its (always leaf)
summary node. -/

inductive BTree where
  | leaf (flags : Nat)
  | inner (children : List BTree) (root : Nat)

def defaultChild : BTree := .leaf 0

/-! Leaf operations (`bitarray_recursive<Size, true>`, lines 107-153). -/

/-- `flags_ |= uint_type(1) << i;` -/
def leaf_set (flags i : Nat) : Nat := flags ||| (1 <<< i)

/-- `flags_ &= ~(uint_type(1) << i);` — the complement is taken in a `w`-bit
word. -/
def leaf_clear (w flags i : Nat) : Nat := flags &&& ((2 ^ w - 1) ^^^ (1 <<< i))

/-- `return (flags_ & (uint_type(1) << i));` -/
def leaf_is_set (flags i : Nat) : Bool := flags &&& (1 <<< i) != 0

/-- `return !flags_;` -/
def leaf_empty (flags : Nat) : Bool := flags == 0

/-- `return tlx::ffs(flags_) - 1;` -/
def leaf_find_lsb (flags : Nat) : Nat := ffs flags - 1

/-! Recursive operations (`bitarray_recursive<Size, false>`, lines 33-105).
The index split `get_index_(i) = (i / child_type::size, i % child_type::size)`
is inlined. -/

/-- `set_bit`: `root_.set_bit(idx.first); children_[idx.first].set_bit(idx.second);` -/
def set_bit : Shape → BTree → Nat → BTree
  | .leaf _, .leaf f, i => .leaf (leaf_set f i)
  | .inner _ cSh _, .inner ch rt, i =>
      .inner
        (ch.set (i / cSh.size)
          (set_bit cSh (ch.getD (i / cSh.size) defaultChild) (i % cSh.size)))
        (leaf_set rt (i / cSh.size))
  | _, t, _ => t

/-- `empty`: leaf `!flags_`; inner `root_.empty()`. -/
def empty_b : Shape → BTree → Bool
  | .leaf _, .leaf f => leaf_empty f
  | .inner _ _ _, .inner _ rt => leaf_empty rt
  | _, _ => true

/-- `clear_bit`: clear in the child first, then clear the summary bit iff the
child became empty. -/
def clear_bit : Shape → BTree → Nat → BTree
  | .leaf s, .leaf f, i => .leaf (leaf_clear (uint_width s) f i)
  | .inner _ cSh rs, .inner ch rt, i =>
      let ci := i / cSh.size
      let ch2 := ch.set ci (clear_bit cSh (ch.getD ci defaultChild) (i % cSh.size))
      .inner ch2
        (if empty_b cSh (ch2.getD ci defaultChild)
         then leaf_clear (uint_width (root_cap rs)) rt ci
         else rt)
  | _, t, _ => t

/-- `is_set`: delegates to the child, never consults the summary. -/
def is_set : Shape → BTree → Nat → Bool
  | .leaf _, .leaf f, i => leaf_is_set f i
  | .inner _ cSh _, .inner ch _, i =>
      is_set cSh (ch.getD (i / cSh.size) defaultChild) (i % cSh.size)
  | _, _, _ => false

/-- `clear_all`: clears the summary word and every child. -/
def clear_all : Shape → BTree → BTree
  | .leaf _, .leaf _ => .leaf 0
  | .inner _ cSh _, .inner ch _ => .inner (ch.map (clear_all cSh)) 0
  | _, t => t

/-- `find_lsb`: the summary names the first non-empty child; recurse into it. -/
def find_lsb : Shape → BTree → Nat
  | .leaf _, .leaf f => leaf_find_lsb f
  | .inner _ cSh _, .inner ch rt =>
      leaf_find_lsb rt * cSh.size + find_lsb cSh (ch.getD (leaf_find_lsb rt) defaultChild)
  | _, _ => 0

/-- The freshly constructed state: every word is zero
(`bitarray_recursive() : flags_(0)`, default-constructed children). -/
def initTree : Shape → BTree
  | .leaf _ => .leaf 0
  | .inner _ cSh rs => .inner (List.replicate rs (initTree cSh)) 0

/-! ### Operation sequences and reachable states -/

inductive Op where
  | set (i : Nat)
  | clear (i : Nat)
  | clearAll
deriving DecidableEq

def applyOp (sh : Shape) (t : BTree) : Op → BTree
  | .set i => set_bit sh t i
  | .clear i => clear_bit sh t i
  | .clearAll => clear_all sh t

def applyOps (sh : Shape) (t : BTree) (ops : List Op) : BTree :=
  ops.foldl (applyOp sh) t

def Op.inRange (n : Nat) : Op → Bool
  | .set i => i < n
  | .clear i => i < n
  | .clearAll => true

def opsInRange (n : Nat) (ops : List Op) : Prop :=
  ∀ op ∈ ops, op.inRange n = true

instance (n : Nat) (ops : List Op) : Decidable (opsInRange n ops) := by
  unfold opsInRange
  infer_instance

/-- The state of `tlx::bitarray<n>` after a sequence of operations on a fresh
instance. -/
def runOps (n : Nat) (ops : List Op) : BTree :=
  applyOps (shapeOf n) (initTree (shapeOf n)) ops

/-! ### Well-formed shapes

`FullS` describes the shapes produced for power-of-two capacities (all child
subtrees): every level covers its capacity exactly.  `WFS` describes the shape
of an arbitrary top-level capacity, whose last child may be only partially
used. -/

inductive FullS : Shape → Prop
  | leaf (s : Nat) (h1 : 1 ≤ s) (h2 : s ≤ 64) : FullS (.leaf s)
  | inner (s : Nat) (cSh : Shape) (rs : Nat)
      (hs : 64 < s) (hrs1 : 1 ≤ rs) (hrs64 : rs ≤ 64)
      (hcs : 1 ≤ cSh.size)
      (heq : s = rs * cSh.size)
      (hfull : FullS cSh) : FullS (.inner s cSh rs)

inductive WFS : Shape → Prop
  | leaf (s : Nat) (h1 : 1 ≤ s) (h2 : s ≤ 64) : WFS (.leaf s)
  | inner (s : Nat) (cSh : Shape) (rs : Nat)
      (hs : 64 < s) (hrs1 : 1 ≤ rs) (hrs64 : rs ≤ 64)
      (hcs : 1 ≤ cSh.size)
      (hcover : s ≤ rs * cSh.size)
      (hfull : FullS cSh) : WFS (.inner s cSh rs)

theorem FullS.toWFS {sh : Shape} (h : FullS sh) : WFS sh := by
  cases h with
  | leaf s h1 h2 => exact WFS.leaf s h1 h2
  | inner s cSh rs hs hrs1 hrs64 hcs heq hfull =>
    exact WFS.inner s cSh rs hs hrs1 hrs64 hcs (le_of_eq heq) hfull

theorem shapeOf_size (s : Nat) : (shapeOf s).size = s := by
  by_cases h : s ≤ 64
  · rw [shapeOf_leaf s h]; rfl
  · rw [shapeOf_inner s (by omega)]; rfl

theorem clog2_pow (k : Nat) : clog2 (2 ^ k) = k := by
  rw [clog2_eq_clog]
  exact Nat.clog_pow 2 k (by omega)

theorem div_ceil_exact (a b : Nat) (hb : 0 < b) (hdvd : b ∣ a) :
    div_ceil a b = a / b := by
  obtain ⟨q, rfl⟩ := hdvd
  unfold div_ceil
  have h1 : b * q + b - 1 = b * q + (b - 1) := by omega
  rw [h1, Nat.mul_add_div hb, Nat.mul_div_cancel_left q hb,
    Nat.div_eq_of_lt (by omega), Nat.add_zero]

theorem root_size_pos (s : Nat) (h : 1 ≤ s) : 1 ≤ root_size s := by
  unfold root_size div_ceil
  have hcs := child_size_pos s
  rw [Nat.one_le_div_iff (by omega)]
  omega

theorem width_split (s : Nat) (h : 64 < s) :
    2 ^ width s = 2 ^ root_width s * child_size s := by
  obtain ⟨h1, h2⟩ := root_width_bounds s
  have h7 := width_ge_seven s h
  unfold child_size child_width
  rw [← Nat.pow_add]
  congr 1
  unfold leaf_width at h2
  omega

theorem root_size_le (s : Nat) (h : 64 < s) : root_size s ≤ 2 ^ root_width s := by
  have hle : s ≤ 2 ^ width s := le_two_pow_clog2 s
  have hsplit := width_split s h
  have hcs := child_size_pos s
  unfold root_size div_ceil
  have h1 : s + child_size s - 1 ≤ 2 ^ root_width s * child_size s + (child_size s - 1) := by
    omega
  calc (s + child_size s - 1) / child_size s
      ≤ (2 ^ root_width s * child_size s + (child_size s - 1)) / child_size s :=
        Nat.div_le_div_right h1
    _ = 2 ^ root_width s := by
        rw [Nat.mul_comm (2 ^ root_width s), Nat.mul_add_div (by omega),
          Nat.div_eq_of_lt (by omega), Nat.add_zero]

theorem root_size_le_64 (s : Nat) (h : 64 < s) : root_size s ≤ 64 := by
  have h1 := root_size_le s h
  obtain ⟨_, h2⟩ := root_width_bounds s
  have h3 : (2 : Nat) ^ root_width s ≤ 2 ^ 6 := Nat.pow_le_pow_right (by omega) h2
  norm_num at h3
  omega

theorem fullS_shapeOf_pow (k : Nat) : FullS (shapeOf (2 ^ k)) := by
  induction k using Nat.strong_induction_on with
  | _ k IH =>
    by_cases h64 : 2 ^ k ≤ 64
    · rw [shapeOf_leaf _ h64]
      exact FullS.leaf _ Nat.one_le_two_pow h64
    · have hk : 64 < 2 ^ k := by omega
      have hk7 : 7 ≤ k := by
        by_contra hc
        have : (2 : Nat) ^ k ≤ 2 ^ 6 := Nat.pow_le_pow_right (by omega) (by omega)
        norm_num at this
        omega
      rw [shapeOf_inner _ hk]
      have hw : width (2 ^ k) = k := clog2_pow k
      obtain ⟨hrw1, hrw6⟩ := root_width_bounds (2 ^ k)
      have hcw : child_width (2 ^ k) = k - root_width (2 ^ k) := by
        unfold child_width
        rw [hw]
      have hcsize : child_size (2 ^ k) = 2 ^ (k - root_width (2 ^ k)) := by
        unfold child_size
        rw [hcw]
      have hdvd : child_size (2 ^ k) ∣ 2 ^ k := by
        rw [hcsize]
        exact Nat.pow_dvd_pow 2 (by omega)
      have hrs : root_size (2 ^ k) = 2 ^ root_width (2 ^ k) := by
        unfold root_size
        rw [div_ceil_exact _ _ (child_size_pos _) hdvd, hcsize,
          Nat.pow_div (by unfold leaf_width at hrw6; omega) (by omega)]
        congr 1
        unfold leaf_width at hrw6
        omega
      refine FullS.inner _ _ _ hk (root_size_pos _ (by omega)) (root_size_le_64 _ hk)
        ?_ ?_ ?_
      · rw [shapeOf_size]
        exact child_size_pos _
      · rw [shapeOf_size, hrs, hcsize, ← Nat.pow_add]
        congr 1
        unfold leaf_width at hrw6
        omega
      · rw [hcsize]
        exact IH _ (by omega)

theorem wfs_shapeOf (n : Nat) (h : 1 ≤ n) : WFS (shapeOf n) := by
  by_cases h64 : n ≤ 64
  · rw [shapeOf_leaf n h64]
    exact WFS.leaf n h h64
  · have hn : 64 < n := by omega
    rw [shapeOf_inner n hn]
    have hcsize : ∃ k, child_size n = 2 ^ k := ⟨child_width n, rfl⟩
    obtain ⟨k, hk⟩ := hcsize
    refine WFS.inner _ _ _ hn (root_size_pos n (by omega)) (root_size_le_64 n hn)
      ?_ ?_ ?_
    · rw [shapeOf_size]
      exact child_size_pos n
    · rw [shapeOf_size]
      unfold root_size
      rw [Nat.mul_comm]
      exact (div_ceil_spec n (child_size n) (child_size_pos n)).1
    · rw [hk]
      exact fullS_shapeOf_pow k

/-! ### List helpers -/

theorem getD_set_self {α : Type} (l : List α) (i : Nat) (a d : α) (h : i < l.length) :
    (l.set i a).getD i d = a := by
  induction l generalizing i with
  | nil => simp at h
  | cons x xs IH =>
    cases i with
    | zero => rfl
    | succ n =>
      simp only [List.set, List.getD, List.getElem?_cons_succ] at *
      exact IH n (by simpa using h)

theorem getD_set_ne {α : Type} (l : List α) (i j : Nat) (a d : α) (h : i ≠ j) :
    (l.set i a).getD j d = l.getD j d := by
  induction l generalizing i j with
  | nil => rfl
  | cons x xs IH =>
    cases i with
    | zero =>
      cases j with
      | zero => omega
      | succ m => rfl
    | succ n =>
      cases j with
      | zero => rfl
      | succ m =>
        simp only [List.set, List.getD, List.getElem?_cons_succ]
        exact IH n m (by omega)

theorem getD_beyond {α : Type} (l : List α) (i : Nat) (d : α) (h : l.length ≤ i) :
    l.getD i d = d := by
  induction l generalizing i with
  | nil => cases i <;> rfl
  | cons x xs IH =>
    cases i with
    | zero => simp at h
    | succ n =>
      simp only [List.getD, List.getElem?_cons_succ]
      exact IH n (by simpa using h)

theorem getD_replicate {α : Type} (n j : Nat) (a d : α) (h : j < n) :
    (List.replicate n a).getD j d = a := by
  induction n generalizing j with
  | zero => omega
  | succ m IH =>
    cases j with
    | zero => rfl
    | succ k =>
      simp only [List.replicate, List.getD, List.getElem?_cons_succ]
      exact IH k (by omega)

theorem getD_map {α β : Type} (l : List α) (f : α → β) (k : Nat) (d : β) (d' : α)
    (h : k < l.length) : (l.map f).getD k d = f (l.getD k d') := by
  induction l generalizing k with
  | nil => simp at h
  | cons x xs IH =>
    cases k with
    | zero => rfl
    | succ n =>
      simp only [List.map, List.getD, List.getElem?_cons_succ]
      exact IH n (by simpa using h)

/-! ### Leaf-level lemmas -/

theorem land_two_pow_ne_zero_iff (f i : Nat) :
    (f &&& (1 <<< i) != 0) = f.testBit i := by
  rw [Nat.one_shiftLeft]
  cases hb : f.testBit i with
  | false =>
    have hz : f &&& 2 ^ i = 0 := by
      apply Nat.eq_of_testBit_eq
      intro j
      rw [Nat.testBit_and, Nat.zero_testBit]
      by_cases hij : i = j
      · subst hij
        rw [hb, Bool.false_and]
      · rw [Nat.testBit_two_pow_of_ne hij, Bool.and_false]
    rw [hz]
    rfl
  | true =>
    have hnz : (f &&& 2 ^ i).testBit i = true := by
      rw [Nat.testBit_and, hb, Nat.testBit_two_pow_self, Bool.and_true]
    have : f &&& 2 ^ i ≠ 0 := by
      intro h0
      rw [h0, Nat.zero_testBit] at hnz
      exact Bool.false_ne_true hnz
    simpa [bne] using this

theorem leaf_is_set_eq_testBit (f i : Nat) : leaf_is_set f i = f.testBit i :=
  land_two_pow_ne_zero_iff f i

theorem leaf_set_testBit (f i j : Nat) :
    (leaf_set f i).testBit j = (f.testBit j || decide (j = i)) := by
  unfold leaf_set
  rw [Nat.testBit_or, Nat.one_shiftLeft, Nat.testBit_two_pow]
  by_cases h : i = j
  · subst h
    simp
  · have hji : ¬ j = i := fun hh => h hh.symm
    simp [h, hji]

theorem leaf_set_lt (w f i : Nat) (hf : f < 2 ^ w) (hi : i < w) :
    leaf_set f i < 2 ^ w := by
  unfold leaf_set
  apply Nat.or_lt_two_pow hf
  rw [Nat.one_shiftLeft]
  exact Nat.pow_lt_pow_right (by omega) hi

theorem leaf_clear_testBit (w f i j : Nat) (hf : f < 2 ^ w) :
    (leaf_clear w f i).testBit j = (f.testBit j && !decide (j = i)) := by
  unfold leaf_clear
  rw [Nat.testBit_and, Nat.testBit_xor, Nat.one_shiftLeft,
    Nat.testBit_two_pow_sub_one, Nat.testBit_two_pow]
  by_cases hjw : j < w
  · by_cases hij : i = j
    · subst hij
      simp [hjw]
    · have hji : ¬ j = i := fun hh => hij hh.symm
      simp [hjw, hij, hji]
  · have hfj : f.testBit j = false := Nat.testBit_lt_two_pow
      (Nat.lt_of_lt_of_le hf (Nat.pow_le_pow_right (by omega) (by omega)))
    simp [hfj]

theorem leaf_clear_le (w f i : Nat) : leaf_clear w f i ≤ f := Nat.and_le_left

theorem leaf_clear_zero (w i : Nat) : leaf_clear w 0 i = 0 := Nat.zero_and _

theorem leaf_find_lsb_spec (f : Nat) (h : f ≠ 0) :
    f.testBit (leaf_find_lsb f) = true ∧
    ∀ j, j < leaf_find_lsb f → f.testBit j = false := ffs_spec f h

theorem leaf_find_lsb_lt (f s : Nat) (h : f ≠ 0) (hf : f < 2 ^ s) :
    leaf_find_lsb f < s := by
  obtain ⟨h1, _⟩ := leaf_find_lsb_spec f h
  have h2 := Nat.testBit_implies_ge h1
  by_contra hc
  have : (2 : Nat) ^ s ≤ 2 ^ leaf_find_lsb f := Nat.pow_le_pow_right (by omega) (by omega)
  omega

/-! ### Index decomposition -/

theorem idx_div_lt (i rs cs : Nat) (hcs : 0 < cs) (h : i < rs * cs) : i / cs < rs :=
  (Nat.div_lt_iff_lt_mul hcs).mpr (by rw [Nat.mul_comm] at h ⊢; exact h)

theorem idx_eq_iff (i j cs : Nat) (_hcs : 0 < cs) :
    j = i ↔ (j / cs = i / cs ∧ j % cs = i % cs) := by
  constructor
  · rintro rfl
    exact ⟨rfl, rfl⟩
  · rintro ⟨h1, h2⟩
    have hi := Nat.div_add_mod i cs
    have hj := Nat.div_add_mod j cs
    rw [h1, h2] at hj
    omega

/-! ### State invariants

`WFT` (well-typed state): the state tree matches its shape, all child lists
have the declared length, and every word is bounded by its capacity.
`Exact` is the summary invariant actually maintained by the code: summary
bit `k` is set iff child `k` is non-empty (the code clears the summary bit
eagerly whenever a `clear_bit` empties the child, so the over-approximation
of the specification is in fact exact here).
`NoPad`: no bit at an index at or above the capacity is set. -/

def WFT : Shape → BTree → Prop
  | .leaf s, .leaf f => f < 2 ^ s
  | .inner _ cSh rs, .inner ch rt =>
      ch.length = rs ∧ rt < 2 ^ rs ∧ ∀ k, k < rs → WFT cSh (ch.getD k defaultChild)
  | _, _ => False

def Exact : Shape → BTree → Prop
  | .leaf _, _ => True
  | .inner _ cSh rs, .inner ch rt =>
      (∀ k, k < rs → rt.testBit k = !empty_b cSh (ch.getD k defaultChild)) ∧
      ∀ k, k < rs → Exact cSh (ch.getD k defaultChild)
  | _, _ => True

def NoPad (sh : Shape) (t : BTree) : Prop :=
  ∀ i, sh.size ≤ i → is_set sh t i = false

theorem is_set_default (cSh : Shape) (i : Nat) : is_set cSh defaultChild i = false := by
  cases cSh with
  | leaf s =>
    show leaf_is_set 0 i = false
    unfold leaf_is_set
    rw [Nat.zero_and]
    rfl
  | inner s cSh rs => rfl

theorem empty_b_default (cSh : Shape) : empty_b cSh defaultChild = true := by
  cases cSh <;> rfl

theorem wft_default (cSh : Shape) (h : ∃ s, cSh = .leaf s) : WFT cSh defaultChild := by
  obtain ⟨s, rfl⟩ := h
  show (0 : Nat) < 2 ^ s
  exact Nat.two_pow_pos s

theorem wfs_inner_elim {s rs : Nat} {cSh : Shape} (h : WFS (.inner s cSh rs)) :
    64 < s ∧ 1 ≤ rs ∧ rs ≤ 64 ∧ 1 ≤ cSh.size ∧ s ≤ rs * cSh.size ∧ FullS cSh := by
  cases h with
  | inner _ _ _ hs hrs1 hrs64 hcs hcover hfull =>
    exact ⟨hs, hrs1, hrs64, hcs, hcover, hfull⟩

theorem fulls_inner_elim {s rs : Nat} {cSh : Shape} (h : FullS (.inner s cSh rs)) :
    64 < s ∧ 1 ≤ rs ∧ rs ≤ 64 ∧ 1 ≤ cSh.size ∧ s = rs * cSh.size ∧ FullS cSh := by
  cases h with
  | inner _ _ _ hs hrs1 hrs64 hcs heq hfull =>
    exact ⟨hs, hrs1, hrs64, hcs, heq, hfull⟩

theorem fulls_leaf_elim {s : Nat} (h : FullS (.leaf s)) : 1 ≤ s ∧ s ≤ 64 := by
  cases h with
  | leaf _ h1 h2 => exact ⟨h1, h2⟩

theorem wft_leaf_inv {s : Nat} {t : BTree} (h : WFT (.leaf s) t) :
    ∃ f, t = .leaf f ∧ f < 2 ^ s := by
  cases t with
  | leaf f => exact ⟨f, rfl, h⟩
  | inner ch rt => exact h.elim

theorem wft_inner_inv {s rs : Nat} {cSh : Shape} {t : BTree}
    (h : WFT (.inner s cSh rs) t) :
    ∃ ch rt, t = .inner ch rt ∧ ch.length = rs ∧ rt < 2 ^ rs ∧
      ∀ k, k < rs → WFT cSh (ch.getD k defaultChild) := by
  cases t with
  | leaf f => exact h.elim
  | inner ch rt =>
    obtain ⟨h1, h2, h3⟩ := h
    exact ⟨ch, rt, rfl, h1, h2, h3⟩

/-! ### Characterization of the operations on well-formed states -/

theorem is_set_set_bit (sh : Shape) (hwfs : WFS sh) :
    ∀ (t : BTree), WFT sh t → ∀ i j, i < sh.size →
      is_set sh (set_bit sh t i) j = (is_set sh t j || decide (j = i)) := by
  induction sh with
  | leaf s =>
    intro t hwft i j hi
    obtain ⟨f, rfl, hf⟩ := wft_leaf_inv hwft
    show leaf_is_set (leaf_set f i) j = (leaf_is_set f j || decide (j = i))
    rw [leaf_is_set_eq_testBit, leaf_is_set_eq_testBit, leaf_set_testBit]
  | inner s cSh rs IH =>
    intro t hwft i j hi
    obtain ⟨hs, hrs1, hrs64, hcs, hcover, hfull⟩ := wfs_inner_elim hwfs
    obtain ⟨ch, rt, rfl, hlen, hrt, hch⟩ := wft_inner_inv hwft
    have hszi : i < rs * cSh.size := by
      have : (Shape.inner s cSh rs).size = s := rfl
      omega
    have hci : i / cSh.size < rs := idx_div_lt i rs cSh.size (by omega) hszi
    simp only [set_bit, is_set]
    by_cases hcj : j / cSh.size = i / cSh.size
    · rw [hcj, getD_set_self _ _ _ _ (by rw [hlen]; exact hci)]
      rw [IH (FullS.toWFS hfull) _ (hch _ hci) (i % cSh.size) (j % cSh.size)
        (Nat.mod_lt i (by omega))]
      have hdec : decide (j % cSh.size = i % cSh.size) = decide (j = i) :=
        decide_eq_decide.mpr
          ⟨fun hm => (idx_eq_iff i j cSh.size (by omega)).mpr ⟨hcj, hm⟩,
           fun hj => by rw [hj]⟩
      rw [hdec]
    · rw [getD_set_ne _ _ _ _ _ (fun hh : i / cSh.size = j / cSh.size => hcj hh.symm)]
      have hne : ¬ (j = i) := fun hh => hcj (by rw [hh])
      simp [hne]

theorem wfs_leaf_elim {s : Nat} (h : WFS (.leaf s)) : 1 ≤ s ∧ s ≤ 64 := by
  cases h with
  | leaf _ h1 h2 => exact ⟨h1, h2⟩

theorem size_le_uint_width (s : Nat) (h : s ≤ 64) : s ≤ uint_width s := by
  unfold uint_width
  by_cases h32 : s ≤ 32
  · rw [if_pos h32]
    omega
  · rw [if_neg h32]
    omega

theorem leaf_is_set_zero (j : Nat) : leaf_is_set 0 j = false := by
  unfold leaf_is_set
  rw [Nat.zero_and]
  rfl

theorem ne_zero_of_testBit {x j : Nat} (h : x.testBit j = true) : x ≠ 0 := by
  intro h0
  rw [h0, Nat.zero_testBit] at h
  exact Bool.false_ne_true h

theorem is_set_clear_bit (sh : Shape) (hwfs : WFS sh) :
    ∀ (t : BTree), WFT sh t → ∀ i j, i < sh.size →
      is_set sh (clear_bit sh t i) j = (is_set sh t j && !decide (j = i)) := by
  induction sh with
  | leaf s =>
    intro t hwft i j hi
    obtain ⟨f, rfl, hf⟩ := wft_leaf_inv hwft
    obtain ⟨hs1, hs64⟩ := wfs_leaf_elim hwfs
    have hf' : f < 2 ^ uint_width s :=
      Nat.lt_of_lt_of_le hf (Nat.pow_le_pow_right (by omega) (size_le_uint_width s hs64))
    show leaf_is_set (leaf_clear (uint_width s) f i) j = (leaf_is_set f j && !decide (j = i))
    rw [leaf_is_set_eq_testBit, leaf_is_set_eq_testBit, leaf_clear_testBit _ _ _ _ hf']
  | inner s cSh rs IH =>
    intro t hwft i j hi
    obtain ⟨hs, hrs1, hrs64, hcs, hcover, hfull⟩ := wfs_inner_elim hwfs
    obtain ⟨ch, rt, rfl, hlen, hrt, hch⟩ := wft_inner_inv hwft
    have hszi : i < rs * cSh.size := by
      have : (Shape.inner s cSh rs).size = s := rfl
      omega
    have hci : i / cSh.size < rs := idx_div_lt i rs cSh.size (by omega) hszi
    simp only [clear_bit, is_set]
    by_cases hcj : j / cSh.size = i / cSh.size
    · rw [hcj, getD_set_self _ _ _ _ (by rw [hlen]; exact hci)]
      rw [IH (FullS.toWFS hfull) _ (hch _ hci) (i % cSh.size) (j % cSh.size)
        (Nat.mod_lt i (by omega))]
      have hdec : decide (j % cSh.size = i % cSh.size) = decide (j = i) :=
        decide_eq_decide.mpr
          ⟨fun hm => (idx_eq_iff i j cSh.size (by omega)).mpr ⟨hcj, hm⟩,
           fun hj => by rw [hj]⟩
      rw [hdec]
    · rw [getD_set_ne _ _ _ _ _ (fun hh : i / cSh.size = j / cSh.size => hcj hh.symm)]
      have hne : ¬ (j = i) := fun hh => hcj (by rw [hh])
      simp [hne]

theorem is_set_clear_all (sh : Shape) (hwfs : WFS sh) :
    ∀ (t : BTree), WFT sh t → ∀ j, is_set sh (clear_all sh t) j = false := by
  induction sh with
  | leaf s =>
    intro t hwft j
    obtain ⟨f, rfl, hf⟩ := wft_leaf_inv hwft
    exact leaf_is_set_zero j
  | inner s cSh rs IH =>
    intro t hwft j
    obtain ⟨hs, hrs1, hrs64, hcs, hcover, hfull⟩ := wfs_inner_elim hwfs
    obtain ⟨ch, rt, rfl, hlen, hrt, hch⟩ := wft_inner_inv hwft
    simp only [clear_all, is_set]
    by_cases hcj : j / cSh.size < ch.length
    · rw [getD_map ch _ _ _ defaultChild hcj]
      exact IH (FullS.toWFS hfull) _ (hch _ (hlen ▸ hcj)) (j % cSh.size)
    · rw [getD_beyond _ _ _ (by rw [List.length_map]; omega)]
      exact is_set_default cSh _

theorem is_set_init (sh : Shape) : ∀ j, is_set sh (initTree sh) j = false := by
  induction sh with
  | leaf s =>
    intro j
    exact leaf_is_set_zero j
  | inner s cSh rs IH =>
    intro j
    simp only [initTree, is_set]
    by_cases hcj : j / cSh.size < rs
    · rw [getD_replicate _ _ _ _ hcj]
      exact IH _
    · rw [getD_beyond _ _ _ (by rw [List.length_replicate]; omega)]
      exact is_set_default cSh _

/-! ### Preservation of `WFT` -/

theorem wft_init (sh : Shape) (hwfs : WFS sh) : WFT sh (initTree sh) := by
  induction sh with
  | leaf s => exact Nat.two_pow_pos s
  | inner s cSh rs IH =>
    obtain ⟨hs, hrs1, hrs64, hcs, hcover, hfull⟩ := wfs_inner_elim hwfs
    refine ⟨List.length_replicate _ _, Nat.two_pow_pos rs, ?_⟩
    intro k hk
    rw [getD_replicate _ _ _ _ hk]
    exact IH (FullS.toWFS hfull)

theorem wft_set_bit (sh : Shape) (hwfs : WFS sh) :
    ∀ (t : BTree), WFT sh t → ∀ i, i < sh.size → WFT sh (set_bit sh t i) := by
  induction sh with
  | leaf s =>
    intro t hwft i hi
    obtain ⟨f, rfl, hf⟩ := wft_leaf_inv hwft
    exact leaf_set_lt s f i hf hi
  | inner s cSh rs IH =>
    intro t hwft i hi
    obtain ⟨hs, hrs1, hrs64, hcs, hcover, hfull⟩ := wfs_inner_elim hwfs
    obtain ⟨ch, rt, rfl, hlen, hrt, hch⟩ := wft_inner_inv hwft
    have hszi : i < rs * cSh.size := by
      have : (Shape.inner s cSh rs).size = s := rfl
      omega
    have hci : i / cSh.size < rs := idx_div_lt i rs cSh.size (by omega) hszi
    refine ⟨by rw [List.length_set]; exact hlen, leaf_set_lt rs rt _ hrt hci, ?_⟩
    intro k hk
    by_cases hkc : k = i / cSh.size
    · subst hkc
      rw [getD_set_self _ _ _ _ (by rw [hlen]; exact hci)]
      exact IH (FullS.toWFS hfull) _ (hch _ hci) _ (Nat.mod_lt i (by omega))
    · rw [getD_set_ne _ _ _ _ _ (fun hh : i / cSh.size = k => hkc hh.symm)]
      exact hch k hk

theorem wft_clear_bit (sh : Shape) (hwfs : WFS sh) :
    ∀ (t : BTree), WFT sh t → ∀ i, i < sh.size → WFT sh (clear_bit sh t i) := by
  induction sh with
  | leaf s =>
    intro t hwft i hi
    obtain ⟨f, rfl, hf⟩ := wft_leaf_inv hwft
    exact Nat.lt_of_le_of_lt (leaf_clear_le _ f i) hf
  | inner s cSh rs IH =>
    intro t hwft i hi
    obtain ⟨hs, hrs1, hrs64, hcs, hcover, hfull⟩ := wfs_inner_elim hwfs
    obtain ⟨ch, rt, rfl, hlen, hrt, hch⟩ := wft_inner_inv hwft
    have hszi : i < rs * cSh.size := by
      have : (Shape.inner s cSh rs).size = s := rfl
      omega
    have hci : i / cSh.size < rs := idx_div_lt i rs cSh.size (by omega) hszi
    simp only [clear_bit]
    refine ⟨by rw [List.length_set]; exact hlen, ?_, ?_⟩
    · cases hcond : empty_b cSh
        ((ch.set (i / cSh.size)
          (clear_bit cSh (ch.getD (i / cSh.size) defaultChild) (i % cSh.size))).getD
          (i / cSh.size) defaultChild)
      · exact hrt
      · exact Nat.lt_of_le_of_lt (leaf_clear_le _ rt _) hrt
    · intro k hk
      by_cases hkc : k = i / cSh.size
      · subst hkc
        rw [getD_set_self _ _ _ _ (by rw [hlen]; exact hci)]
        exact IH (FullS.toWFS hfull) _ (hch _ hci) _ (Nat.mod_lt i (by omega))
      · rw [getD_set_ne _ _ _ _ _ (fun hh : i / cSh.size = k => hkc hh.symm)]
        exact hch k hk

theorem wft_clear_all (sh : Shape) (hwfs : WFS sh) :
    ∀ (t : BTree), WFT sh t → WFT sh (clear_all sh t) := by
  induction sh with
  | leaf s =>
    intro t hwft
    obtain ⟨f, rfl, hf⟩ := wft_leaf_inv hwft
    exact Nat.two_pow_pos s
  | inner s cSh rs IH =>
    intro t hwft
    obtain ⟨hs, hrs1, hrs64, hcs, hcover, hfull⟩ := wfs_inner_elim hwfs
    obtain ⟨ch, rt, rfl, hlen, hrt, hch⟩ := wft_inner_inv hwft
    refine ⟨by rw [List.length_map]; exact hlen, Nat.two_pow_pos rs, ?_⟩
    intro k hk
    rw [getD_map ch _ _ _ defaultChild (by rw [hlen]; exact hk)]
    exact IH (FullS.toWFS hfull) _ (hch k hk)

/-! ### `empty_b` under the operations -/

theorem leaf_empty_false_of_ne {f : Nat} (h : f ≠ 0) : leaf_empty f = false := by
  unfold leaf_empty
  exact beq_eq_false_iff_ne.mpr h

theorem leaf_empty_iff {f : Nat} : leaf_empty f = true ↔ f = 0 := by
  unfold leaf_empty
  exact beq_iff_eq

theorem leaf_set_ne_zero (f i : Nat) : leaf_set f i ≠ 0 := by
  apply ne_zero_of_testBit (j := i)
  rw [leaf_set_testBit]
  simp

theorem empty_b_set_bit (sh : Shape) (t : BTree) (i : Nat) (hwft : WFT sh t) :
    empty_b sh (set_bit sh t i) = false := by
  cases sh with
  | leaf s =>
    obtain ⟨f, rfl, hf⟩ := wft_leaf_inv hwft
    exact leaf_empty_false_of_ne (leaf_set_ne_zero f i)
  | inner s cSh rs =>
    obtain ⟨ch, rt, rfl, hlen, hrt, hch⟩ := wft_inner_inv hwft
    exact leaf_empty_false_of_ne (leaf_set_ne_zero rt _)

theorem empty_b_clear_of_empty (sh : Shape) (t : BTree) (i : Nat)
    (h : empty_b sh t = true) : empty_b sh (clear_bit sh t i) = true := by
  cases sh with
  | leaf s =>
    cases t with
    | leaf f =>
      have hf : f = 0 := leaf_empty_iff.mp h
      subst hf
      show leaf_empty (leaf_clear (uint_width s) 0 i) = true
      rw [leaf_clear_zero]
      rfl
    | inner ch rt => exact h
  | inner s cSh rs =>
    cases t with
    | leaf f => exact h
    | inner ch rt =>
      have hrt : rt = 0 := leaf_empty_iff.mp h
      subst hrt
      simp only [clear_bit]
      cases hcond : empty_b cSh
        ((ch.set (i / cSh.size)
          (clear_bit cSh (ch.getD (i / cSh.size) defaultChild) (i % cSh.size))).getD
          (i / cSh.size) defaultChild)
      · exact rfl
      · show leaf_empty (leaf_clear (uint_width (root_cap rs)) 0 (i / cSh.size)) = true
        rw [leaf_clear_zero]
        rfl

theorem empty_b_clear_all (sh : Shape) (t : BTree) :
    empty_b sh (clear_all sh t) = true := by
  cases sh with
  | leaf s =>
    cases t with
    | leaf f => rfl
    | inner ch rt => rfl
  | inner s cSh rs =>
    cases t with
    | leaf f => rfl
    | inner ch rt => rfl

theorem empty_b_init (sh : Shape) : empty_b sh (initTree sh) = true := by
  cases sh with
  | leaf s => rfl
  | inner s cSh rs => rfl

/-! ### Preservation of the exact summary invariant -/

theorem exact_init (sh : Shape) (hwfs : WFS sh) : Exact sh (initTree sh) := by
  induction sh with
  | leaf s => trivial
  | inner s cSh rs IH =>
    obtain ⟨hs, hrs1, hrs64, hcs, hcover, hfull⟩ := wfs_inner_elim hwfs
    refine ⟨?_, ?_⟩
    · intro k hk
      rw [getD_replicate _ _ _ _ hk, empty_b_init, Nat.zero_testBit]
      rfl
    · intro k hk
      rw [getD_replicate _ _ _ _ hk]
      exact IH (FullS.toWFS hfull)

theorem exact_set_bit (sh : Shape) (hwfs : WFS sh) :
    ∀ (t : BTree), WFT sh t → Exact sh t → ∀ i, i < sh.size →
      Exact sh (set_bit sh t i) := by
  induction sh with
  | leaf s =>
    intro t hwft hex i hi
    trivial
  | inner s cSh rs IH =>
    intro t hwft hex i hi
    obtain ⟨hs, hrs1, hrs64, hcs, hcover, hfull⟩ := wfs_inner_elim hwfs
    obtain ⟨ch, rt, rfl, hlen, hrt, hch⟩ := wft_inner_inv hwft
    obtain ⟨hex1, hex2⟩ := hex
    have hszi : i < rs * cSh.size := by
      have : (Shape.inner s cSh rs).size = s := rfl
      omega
    have hci : i / cSh.size < rs := idx_div_lt i rs cSh.size (by omega) hszi
    refine ⟨?_, ?_⟩
    · intro k hk
      rw [leaf_set_testBit]
      by_cases hkc : k = i / cSh.size
      · subst hkc
        rw [getD_set_self _ _ _ _ (by rw [hlen]; exact hci)]
        rw [empty_b_set_bit cSh _ _ (hch _ hci)]
        simp
      · rw [getD_set_ne _ _ _ _ _ (fun hh : i / cSh.size = k => hkc hh.symm)]
        simp only [hkc, decide_False, Bool.or_false]
        exact hex1 k hk
    · intro k hk
      by_cases hkc : k = i / cSh.size
      · subst hkc
        rw [getD_set_self _ _ _ _ (by rw [hlen]; exact hci)]
        exact IH (FullS.toWFS hfull) _ (hch _ hci) (hex2 _ hci) _ (Nat.mod_lt i (by omega))
      · rw [getD_set_ne _ _ _ _ _ (fun hh : i / cSh.size = k => hkc hh.symm)]
        exact hex2 k hk

theorem exact_clear_bit (sh : Shape) (hwfs : WFS sh) :
    ∀ (t : BTree), WFT sh t → Exact sh t → ∀ i, i < sh.size →
      Exact sh (clear_bit sh t i) := by
  induction sh with
  | leaf s =>
    intro t hwft hex i hi
    trivial
  | inner s cSh rs IH =>
    intro t hwft hex i hi
    obtain ⟨hs, hrs1, hrs64, hcs, hcover, hfull⟩ := wfs_inner_elim hwfs
    obtain ⟨ch, rt, rfl, hlen, hrt, hch⟩ := wft_inner_inv hwft
    obtain ⟨hex1, hex2⟩ := hex
    have hszi : i < rs * cSh.size := by
      have : (Shape.inner s cSh rs).size = s := rfl
      omega
    have hci : i / cSh.size < rs := idx_div_lt i rs cSh.size (by omega) hszi
    have hrcap : rs ≤ root_cap rs := by
      unfold root_cap
      by_cases h32 : rs ≤ 32
      · rw [if_pos h32]; omega
      · rw [if_neg h32]; omega
    have hrt' : rt < 2 ^ uint_width (root_cap rs) := by
      rw [uint_width_root_cap]
      exact Nat.lt_of_lt_of_le hrt (Nat.pow_le_pow_right (by omega) hrcap)
    simp only [clear_bit]
    set newChild := clear_bit cSh (ch.getD (i / cSh.size) defaultChild) (i % cSh.size)
      with hnc
    have hgetset : (ch.set (i / cSh.size) newChild).getD (i / cSh.size) defaultChild
        = newChild := getD_set_self _ _ _ _ (by rw [hlen]; exact hci)
    refine ⟨?_, ?_⟩
    · intro k hk
      by_cases hkc : k = i / cSh.size
      · subst hkc
        rw [hgetset]
        cases hcond : empty_b cSh newChild with
        | true =>
          rw [if_pos rfl, leaf_clear_testBit _ _ _ _ hrt']
          simp
        | false =>
          rw [if_neg (by simp)]
          have holdne : empty_b cSh (ch.getD (i / cSh.size) defaultChild) = false := by
            cases hold : empty_b cSh (ch.getD (i / cSh.size) defaultChild) with
            | true =>
              have hembc := empty_b_clear_of_empty cSh _ (i % cSh.size) hold
              rw [← hnc] at hembc
              rw [hembc] at hcond
              exact absurd hcond (by simp)
            | false => rfl
          rw [hex1 _ hci, holdne]
      · rw [getD_set_ne _ _ _ _ _ (fun hh : i / cSh.size = k => hkc hh.symm)]
        cases hcond : empty_b cSh ((ch.set (i / cSh.size) newChild).getD (i / cSh.size)
            defaultChild) with
        | true =>
          rw [if_pos rfl, leaf_clear_testBit _ _ _ _ hrt']
          simp only [hkc, decide_False, Bool.not_false, Bool.and_true]
          exact hex1 k hk
        | false =>
          simp only [Bool.false_eq_true, if_false]
          exact hex1 k hk
    · intro k hk
      by_cases hkc : k = i / cSh.size
      · subst hkc
        rw [hgetset]
        exact IH (FullS.toWFS hfull) _ (hch _ hci) (hex2 _ hci) _ (Nat.mod_lt i (by omega))
      · rw [getD_set_ne _ _ _ _ _ (fun hh : i / cSh.size = k => hkc hh.symm)]
        exact hex2 k hk

theorem exact_clear_all (sh : Shape) (hwfs : WFS sh) :
    ∀ (t : BTree), WFT sh t → Exact sh (clear_all sh t) := by
  induction sh with
  | leaf s =>
    intro t hwft
    trivial
  | inner s cSh rs IH =>
    intro t hwft
    obtain ⟨hs, hrs1, hrs64, hcs, hcover, hfull⟩ := wfs_inner_elim hwfs
    obtain ⟨ch, rt, rfl, hlen, hrt, hch⟩ := wft_inner_inv hwft
    refine ⟨?_, ?_⟩
    · intro k hk
      rw [getD_map ch _ _ _ defaultChild (by rw [hlen]; exact hk),
        empty_b_clear_all, Nat.zero_testBit]
      rfl
    · intro k hk
      rw [getD_map ch _ _ _ defaultChild (by rw [hlen]; exact hk)]
      exact IH (FullS.toWFS hfull) _ (hch k hk)

/-! ### `NoPad` -/

theorem nopad_init (sh : Shape) : NoPad sh (initTree sh) :=
  fun j _ => is_set_init sh j

theorem nopad_set_bit (sh : Shape) (hwfs : WFS sh) (t : BTree) (hwft : WFT sh t)
    (hnp : NoPad sh t) (i : Nat) (hi : i < sh.size) : NoPad sh (set_bit sh t i) := by
  intro j hj
  rw [is_set_set_bit sh hwfs t hwft i j hi, hnp j hj]
  have hne : ¬ (j = i) := by omega
  simp [hne]

theorem nopad_clear_bit (sh : Shape) (hwfs : WFS sh) (t : BTree) (hwft : WFT sh t)
    (hnp : NoPad sh t) (i : Nat) (hi : i < sh.size) : NoPad sh (clear_bit sh t i) := by
  intro j hj
  rw [is_set_clear_bit sh hwfs t hwft i j hi, hnp j hj]
  rfl

theorem nopad_clear_all (sh : Shape) (hwfs : WFS sh) (t : BTree) (hwft : WFT sh t) :
    NoPad sh (clear_all sh t) :=
  fun j _ => is_set_clear_all sh hwfs t hwft j

/-- On shapes with exact coverage at every level, well-typedness alone implies
that no out-of-range bit reads as set. -/
theorem nopad_full (sh : Shape) (hfull : FullS sh) :
    ∀ t, WFT sh t → NoPad sh t := by
  cases sh with
  | leaf s =>
    intro t hwft j hj
    obtain ⟨f, rfl, hf⟩ := wft_leaf_inv hwft
    show leaf_is_set f j = false
    rw [leaf_is_set_eq_testBit]
    exact Nat.testBit_lt_two_pow
      (Nat.lt_of_lt_of_le hf (Nat.pow_le_pow_right (by omega) hj))
  | inner s cSh rs =>
    intro t hwft j hj
    obtain ⟨hs, hrs1, hrs64, hcs, heq, hfullc⟩ := fulls_inner_elim hfull
    obtain ⟨ch, rt, rfl, hlen, hrt, hch⟩ := wft_inner_inv hwft
    have hjs : rs * cSh.size ≤ j := by
      have : (Shape.inner s cSh rs).size = s := rfl
      omega
    have hcj : rs ≤ j / cSh.size := by
      rw [Nat.le_div_iff_mul_le (by omega)]
      exact hjs
    simp only [is_set]
    rw [getD_beyond _ _ _ (by omega)]
    exact is_set_default cSh _

/-! ### `empty()` is exactly global emptiness -/

theorem empty_iff (sh : Shape) (hwfs : WFS sh) :
    ∀ t, WFT sh t → Exact sh t →
      (empty_b sh t = true ↔ ∀ i, is_set sh t i = false) := by
  induction sh with
  | leaf s =>
    intro t hwft _
    obtain ⟨f, rfl, hf⟩ := wft_leaf_inv hwft
    show leaf_empty f = true ↔ ∀ i, leaf_is_set f i = false
    rw [leaf_empty_iff]
    constructor
    · rintro rfl i
      exact leaf_is_set_zero i
    · intro h
      apply Nat.eq_of_testBit_eq
      intro j
      rw [Nat.zero_testBit, ← leaf_is_set_eq_testBit]
      exact h j
  | inner s cSh rs IH =>
    intro t hwft hex
    obtain ⟨hs, hrs1, hrs64, hcs, hcover, hfull⟩ := wfs_inner_elim hwfs
    obtain ⟨ch, rt, rfl, hlen, hrt, hch⟩ := wft_inner_inv hwft
    obtain ⟨hex1, hex2⟩ := hex
    show leaf_empty rt = true ↔ ∀ i, is_set (.inner s cSh rs) (.inner ch rt) i = false
    rw [leaf_empty_iff]
    constructor
    · rintro rfl i
      simp only [is_set]
      by_cases hci : i / cSh.size < rs
      · have hkempty : empty_b cSh (ch.getD (i / cSh.size) defaultChild) = true := by
          have h := hex1 _ hci
          rw [Nat.zero_testBit] at h
          cases hemp : empty_b cSh (ch.getD (i / cSh.size) defaultChild) with
          | true => rfl
          | false => rw [hemp] at h; exact absurd h (by simp)
        exact (IH (FullS.toWFS hfull) _ (hch _ hci) (hex2 _ hci)).mp hkempty _
      · rw [getD_beyond _ _ _ (by omega)]
        exact is_set_default cSh _
    · intro hall
      apply Nat.eq_of_testBit_eq
      intro k
      rw [Nat.zero_testBit]
      by_cases hk : k < rs
      · rw [hex1 k hk]
        suffices hemp : empty_b cSh (ch.getD k defaultChild) = true by rw [hemp]; rfl
        apply (IH (FullS.toWFS hfull) _ (hch _ hk) (hex2 _ hk)).mpr
        intro li
        by_cases hli : li < cSh.size
        · have h := hall (k * cSh.size + li)
          simp only [is_set] at h
          have hdiv : (k * cSh.size + li) / cSh.size = k := by
            rw [Nat.mul_comm, Nat.mul_add_div (by omega), Nat.div_eq_of_lt hli,
              Nat.add_zero]
          have hmod : (k * cSh.size + li) % cSh.size = li := by
            rw [Nat.mul_comm k cSh.size, Nat.mul_add_mod, Nat.mod_eq_of_lt hli]
          rw [hdiv, hmod] at h
          exact h
        · exact nopad_full cSh hfull _ (hch k hk) li (by omega)
      · exact Nat.testBit_lt_two_pow
          (Nat.lt_of_lt_of_le hrt (Nat.pow_le_pow_right (by omega) (by omega)))

/-! ### `find_lsb` specification -/

theorem find_lsb_inner_step (s : Nat) (cSh : Shape) (rs : Nat) (ch : List BTree)
    (rt : Nat) (hcs : 1 ≤ cSh.size)
    (hwft : WFT (.inner s cSh rs) (.inner ch rt))
    (hexact : Exact (.inner s cSh rs) (.inner ch rt))
    (hchspec : ∀ c, WFT cSh c → Exact cSh c → empty_b cSh c = false →
        find_lsb cSh c < cSh.size ∧ is_set cSh c (find_lsb cSh c) = true ∧
        ∀ j, j < find_lsb cSh c → is_set cSh c j = false)
    (hchempty : ∀ c, WFT cSh c → Exact cSh c → empty_b cSh c = true →
        ∀ j, is_set cSh c j = false)
    (hne : empty_b (.inner s cSh rs) (.inner ch rt) = false) :
    find_lsb (.inner s cSh rs) (.inner ch rt) < rs * cSh.size ∧
    is_set (.inner s cSh rs) (.inner ch rt)
      (find_lsb (.inner s cSh rs) (.inner ch rt)) = true ∧
    ∀ j, j < find_lsb (.inner s cSh rs) (.inner ch rt) →
      is_set (.inner s cSh rs) (.inner ch rt) j = false := by
  obtain ⟨hlen, hrt, hch⟩ := hwft
  obtain ⟨hex1, hex2⟩ := hexact
  have hrtne : rt ≠ 0 := by
    intro h0
    have hne' : leaf_empty rt = false := hne
    rw [h0] at hne'
    exact absurd hne' (by simp [leaf_empty])
  have hci_lt : leaf_find_lsb rt < rs := leaf_find_lsb_lt rt rs hrtne hrt
  obtain ⟨hcb, hcmin⟩ := leaf_find_lsb_spec rt hrtne
  have hchne : empty_b cSh (ch.getD (leaf_find_lsb rt) defaultChild) = false := by
    have h := hex1 _ hci_lt
    rw [hcb] at h
    cases hemp : empty_b cSh (ch.getD (leaf_find_lsb rt) defaultChild) with
    | false => rfl
    | true => rw [hemp] at h; exact absurd h (by simp)
  obtain ⟨hmlt, hmset, hmmin⟩ :=
    hchspec _ (hch _ hci_lt) (hex2 _ hci_lt) hchne
  have hflsb : find_lsb (.inner s cSh rs) (.inner ch rt)
      = leaf_find_lsb rt * cSh.size
        + find_lsb cSh (ch.getD (leaf_find_lsb rt) defaultChild) := rfl
  have hdiv : (leaf_find_lsb rt * cSh.size
      + find_lsb cSh (ch.getD (leaf_find_lsb rt) defaultChild)) / cSh.size
      = leaf_find_lsb rt := by
    rw [Nat.mul_comm, Nat.mul_add_div (by omega), Nat.div_eq_of_lt hmlt, Nat.add_zero]
  have hmod : (leaf_find_lsb rt * cSh.size
      + find_lsb cSh (ch.getD (leaf_find_lsb rt) defaultChild)) % cSh.size
      = find_lsb cSh (ch.getD (leaf_find_lsb rt) defaultChild) := by
    rw [Nat.mul_comm (leaf_find_lsb rt) cSh.size, Nat.mul_add_mod, Nat.mod_eq_of_lt hmlt]
  refine ⟨?_, ?_, ?_⟩
  · rw [hflsb]
    have h1 : (leaf_find_lsb rt + 1) * cSh.size ≤ rs * cSh.size :=
      Nat.mul_le_mul_right _ (by omega)
    have h2 : leaf_find_lsb rt * cSh.size + cSh.size
        = (leaf_find_lsb rt + 1) * cSh.size := by ring
    omega
  · rw [hflsb]
    simp only [is_set]
    rw [hdiv, hmod]
    exact hmset
  · intro j hj
    rw [hflsb] at hj
    simp only [is_set]
    have hdm := Nat.div_add_mod j cSh.size
    rcases Nat.lt_trichotomy (j / cSh.size) (leaf_find_lsb rt) with hlt | heq | hgt
    · have hrtj : rt.testBit (j / cSh.size) = false := hcmin _ hlt
      have hjemp : empty_b cSh (ch.getD (j / cSh.size) defaultChild) = true := by
        have h := hex1 (j / cSh.size) (by omega)
        rw [hrtj] at h
        cases hemp : empty_b cSh (ch.getD (j / cSh.size) defaultChild) with
        | true => rfl
        | false => rw [hemp] at h; exact absurd h (by simp)
      exact hchempty _ (hch (j / cSh.size) (by omega)) (hex2 (j / cSh.size) (by omega))
        hjemp _
    · rw [heq]
      apply hmmin
      have hcomm : cSh.size * leaf_find_lsb rt = leaf_find_lsb rt * cSh.size :=
        Nat.mul_comm _ _
      rw [heq] at hdm
      omega
    · exfalso
      have h1 : cSh.size * (leaf_find_lsb rt + 1) ≤ cSh.size * (j / cSh.size) :=
        Nat.mul_le_mul_left _ (by omega)
      have h2 : cSh.size * (leaf_find_lsb rt + 1)
          = leaf_find_lsb rt * cSh.size + cSh.size := by ring
      omega

theorem find_lsb_spec_full (sh : Shape) (hfull : FullS sh) :
    ∀ t, WFT sh t → Exact sh t → empty_b sh t = false →
      find_lsb sh t < sh.size ∧ is_set sh t (find_lsb sh t) = true ∧
      ∀ j, j < find_lsb sh t → is_set sh t j = false := by
  induction sh with
  | leaf s =>
    intro t hwft _ hne
    obtain ⟨f, rfl, hf⟩ := wft_leaf_inv hwft
    have hfne : f ≠ 0 := by
      intro h0
      have hne' : leaf_empty f = false := hne
      rw [h0] at hne'
      exact absurd hne' (by simp [leaf_empty])
    obtain ⟨h1, h2⟩ := leaf_find_lsb_spec f hfne
    refine ⟨leaf_find_lsb_lt f s hfne hf, ?_, ?_⟩
    · show leaf_is_set f (leaf_find_lsb f) = true
      rw [leaf_is_set_eq_testBit]
      exact h1
    · intro j hj
      show leaf_is_set f j = false
      rw [leaf_is_set_eq_testBit]
      exact h2 j hj
  | inner s cSh rs IH =>
    intro t hwft hex hne
    obtain ⟨hs, hrs1, hrs64, hcs, heq, hfullc⟩ := fulls_inner_elim hfull
    obtain ⟨ch, rt, rfl, hlen, hrt, hch⟩ := wft_inner_inv hwft
    have hstep := find_lsb_inner_step s cSh rs ch rt hcs ⟨hlen, hrt, hch⟩ hex
      (fun c hw hx he => by
        have h := IH hfullc c hw hx he
        exact h)
      (fun c hw hx he => (empty_iff cSh (FullS.toWFS hfullc) c hw hx).mp he)
      hne
    have hsz : (Shape.inner s cSh rs).size = rs * cSh.size := by
      show s = rs * cSh.size
      exact heq
    rw [hsz]
    exact hstep

/-- `find_lsb` on a non-empty well-formed state returns a set index below
which nothing is set (top-level version; the root shape may cover its
capacity only partially, so the `< size` bound follows from `NoPad`). -/
theorem find_lsb_spec_top (sh : Shape) (hwfs : WFS sh) (t : BTree)
    (hwft : WFT sh t) (hex : Exact sh t) (hnp : NoPad sh t)
    (hne : empty_b sh t = false) :
    find_lsb sh t < sh.size ∧ is_set sh t (find_lsb sh t) = true ∧
    ∀ j, j < find_lsb sh t → is_set sh t j = false := by
  cases sh with
  | leaf s =>
    exact find_lsb_spec_full (.leaf s) (FullS.leaf s (wfs_leaf_elim hwfs).1 (wfs_leaf_elim hwfs).2)
      t hwft hex hne
  | inner s cSh rs =>
    obtain ⟨hs, hrs1, hrs64, hcs, hcover, hfull⟩ := wfs_inner_elim hwfs
    obtain ⟨ch, rt, rfl, hlen, hrt, hch⟩ := wft_inner_inv hwft
    have hstep := find_lsb_inner_step s cSh rs ch rt hcs ⟨hlen, hrt, hch⟩ hex
      (fun c hw hx he => find_lsb_spec_full cSh hfull c hw hx he)
      (fun c hw hx he => (empty_iff cSh (FullS.toWFS hfull) c hw hx).mp he)
      hne
    obtain ⟨hbound, hset, hmin⟩ := hstep
    refine ⟨?_, hset, hmin⟩
    by_contra hc
    have hge : (Shape.inner s cSh rs).size
        ≤ find_lsb (Shape.inner s cSh rs) (BTree.inner ch rt) := by omega
    have hnone := hnp _ hge
    rw [hnone] at hset
    exact Bool.false_ne_true hset

/-! ### The invariant bundle, established for all reachable states -/

def Inv (sh : Shape) (t : BTree) : Prop := WFT sh t ∧ Exact sh t ∧ NoPad sh t

theorem inv_init (sh : Shape) (hwfs : WFS sh) : Inv sh (initTree sh) :=
  ⟨wft_init sh hwfs, exact_init sh hwfs, nopad_init sh⟩

theorem inv_applyOp (sh : Shape) (hwfs : WFS sh) (t : BTree) (hinv : Inv sh t)
    (op : Op) (hop : op.inRange sh.size = true) : Inv sh (applyOp sh t op) := by
  obtain ⟨hwft, hex, hnp⟩ := hinv
  cases op with
  | set i =>
    have hi : i < sh.size := of_decide_eq_true hop
    exact ⟨wft_set_bit sh hwfs t hwft i hi, exact_set_bit sh hwfs t hwft hex i hi,
      nopad_set_bit sh hwfs t hwft hnp i hi⟩
  | clear i =>
    have hi : i < sh.size := of_decide_eq_true hop
    exact ⟨wft_clear_bit sh hwfs t hwft i hi, exact_clear_bit sh hwfs t hwft hex i hi,
      nopad_clear_bit sh hwfs t hwft hnp i hi⟩
  | clearAll =>
    exact ⟨wft_clear_all sh hwfs t hwft, exact_clear_all sh hwfs t hwft,
      nopad_clear_all sh hwfs t hwft⟩

theorem inv_applyOps (sh : Shape) (hwfs : WFS sh) :
    ∀ (ops : List Op) (t : BTree), Inv sh t → opsInRange sh.size ops →
      Inv sh (applyOps sh t ops) := by
  intro ops
  induction ops with
  | nil =>
    intro t hinv _
    exact hinv
  | cons op ops IH =>
    intro t hinv hops
    show Inv sh (applyOps sh (applyOp sh t op) ops)
    exact IH _ (inv_applyOp sh hwfs t hinv op (hops op (List.mem_cons_self op ops)))
      (fun o ho => hops o (List.mem_cons_of_mem op ho))

theorem inv_runOps (n : Nat) (ops : List Op) (h1 : 1 ≤ n) (hops : opsInRange n ops) :
    Inv (shapeOf n) (runOps n ops) := by
  have hwfs := wfs_shapeOf n h1
  apply inv_applyOps (shapeOf n) hwfs ops _ (inv_init _ hwfs)
  rw [shapeOf_size]
  exact hops

/-! ### The naive reference implementation (`tests/bitarray_test.cpp`,
`naive_bitarray`) -/

def naive_init (n : Nat) : List Bool := List.replicate n false

/-- `bits_.at(i) = true;` -/
def naive_set_bit (l : List Bool) (i : Nat) : List Bool := l.set i true

/-- `bits_.at(i) = false;` -/
def naive_clear_bit (l : List Bool) (i : Nat) : List Bool := l.set i false

/-- `return bits_.at(i);` -/
def naive_is_set (l : List Bool) (i : Nat) : Bool := l.getD i false

/-- `for (...) bits_[i] = false;` -/
def naive_clear_all (l : List Bool) : List Bool := l.map (fun _ => false)

/-- `for (...) if (bits_[i]) return false; return true;` -/
def naive_empty (l : List Bool) : Bool := !(l.any (fun b => b))

/-- `for (...) if (bits_[i]) return i;` -/
def naive_find_lsb (l : List Bool) : Nat := l.findIdx (fun b => b)

def naive_applyOp (l : List Bool) : Op → List Bool
  | .set i => naive_set_bit l i
  | .clear i => naive_clear_bit l i
  | .clearAll => naive_clear_all l

def naive_runOps (n : Nat) (ops : List Op) : List Bool :=
  ops.foldl naive_applyOp (naive_init n)

theorem naive_is_set_cons_zero (b : Bool) (xs : List Bool) :
    naive_is_set (b :: xs) 0 = b := rfl

theorem naive_is_set_cons_succ (b : Bool) (xs : List Bool) (j : Nat) :
    naive_is_set (b :: xs) (j + 1) = naive_is_set xs j := rfl

theorem naive_empty_iff (l : List Bool) :
    naive_empty l = true ↔ ∀ i, i < l.length → naive_is_set l i = false := by
  induction l with
  | nil =>
    constructor
    · intro _ i hi
      simp at hi
    · intro _
      rfl
  | cons b xs IH =>
    cases b with
    | true =>
      constructor
      · intro h
        exact absurd h (by simp [naive_empty])
      · intro h
        have h0 := h 0 (by simp)
        rw [naive_is_set_cons_zero] at h0
        exact absurd h0 (by simp)
    | false =>
      have hstep : naive_empty (false :: xs) = naive_empty xs := by
        unfold naive_empty
        rw [List.any_cons]
        rfl
      rw [hstep]
      constructor
      · intro h i hi
        cases i with
        | zero => rfl
        | succ j =>
          rw [naive_is_set_cons_succ]
          exact IH.mp h j (by simpa using hi)
      · intro h
        apply IH.mpr
        intro i hi
        have := h (i + 1) (by simpa using hi)
        rw [naive_is_set_cons_succ] at this
        exact this

theorem naive_find_lsb_spec (l : List Bool) (h : naive_empty l = false) :
    naive_find_lsb l < l.length ∧ naive_is_set l (naive_find_lsb l) = true ∧
    ∀ j, j < naive_find_lsb l → naive_is_set l j = false := by
  induction l with
  | nil => simp [naive_empty] at h
  | cons b xs IH =>
    cases hb : b with
    | true =>
      refine ⟨by simp [naive_find_lsb, List.findIdx_cons, hb], ?_, ?_⟩
      · simp [naive_find_lsb, List.findIdx_cons, hb, naive_is_set]
      · intro j hj
        simp [naive_find_lsb, List.findIdx_cons, hb] at hj
    | false =>
      have hany : (false :: xs).any (fun b => b) = xs.any (fun b => b) := by
        rw [List.any_cons]
        rfl
      have hxs : naive_empty xs = false := by
        unfold naive_empty at h ⊢
        rw [hb, hany] at h
        exact h
      obtain ⟨ih1, ih2, ih3⟩ := IH hxs
      have hidx : naive_find_lsb (false :: xs) = naive_find_lsb xs + 1 := by
        simp [naive_find_lsb, List.findIdx_cons]
      refine ⟨?_, ?_, ?_⟩
      · rw [hidx]
        simp only [List.length_cons]
        omega
      · rw [hidx, naive_is_set_cons_succ]
        exact ih2
      · intro j hj
        rw [hidx] at hj
        cases j with
        | zero => rfl
        | succ k =>
          rw [naive_is_set_cons_succ]
          exact ih3 k (by omega)

theorem naive_length_applyOp (l : List Bool) (op : Op) :
    (naive_applyOp l op).length = l.length := by
  cases op with
  | set i => exact List.length_set l i true
  | clear i => exact List.length_set l i false
  | clearAll => exact List.length_map l _

/-! ### Agreement between `tlx::bitarray` and the naive reference -/

def Agrees (n : Nat) (t : BTree) (l : List Bool) : Prop :=
  l.length = n ∧ ∀ i, i < n → is_set (shapeOf n) t i = naive_is_set l i

theorem naive_is_set_set (l : List Bool) (i j : Nat) (b : Bool) (hi : i < l.length) :
    naive_is_set (l.set i b) j = if j = i then b else naive_is_set l j := by
  by_cases hj : j = i
  · subst hj
    rw [if_pos rfl]
    exact getD_set_self l j b false hi
  · rw [if_neg hj]
    exact getD_set_ne l i j b false (fun hh => hj hh.symm)

theorem agrees_init (n : Nat) : Agrees n (initTree (shapeOf n)) (naive_init n) := by
  refine ⟨List.length_replicate n false, ?_⟩
  intro i hi
  rw [is_set_init]
  unfold naive_is_set naive_init
  rw [getD_replicate _ _ _ _ hi]

theorem agrees_applyOp (n : Nat) (h1 : 1 ≤ n) (t : BTree) (l : List Bool)
    (hinv : Inv (shapeOf n) t) (hag : Agrees n t l) (op : Op)
    (hop : op.inRange n = true) :
    Agrees n (applyOp (shapeOf n) t op) (naive_applyOp l op) := by
  obtain ⟨hwft, hex, hnp⟩ := hinv
  obtain ⟨hlen, hab⟩ := hag
  have hwfs := wfs_shapeOf n h1
  refine ⟨by rw [naive_length_applyOp]; exact hlen, ?_⟩
  intro j hj
  cases op with
  | set i =>
    have hi : i < n := of_decide_eq_true hop
    show is_set (shapeOf n) (set_bit (shapeOf n) t i) j = naive_is_set (l.set i true) j
    rw [is_set_set_bit (shapeOf n) hwfs t hwft i j (by rw [shapeOf_size]; exact hi),
      naive_is_set_set l i j true (by omega), hab j hj]
    by_cases hji : j = i
    · simp [hji]
    · simp [hji]
  | clear i =>
    have hi : i < n := of_decide_eq_true hop
    show is_set (shapeOf n) (clear_bit (shapeOf n) t i) j = naive_is_set (l.set i false) j
    rw [is_set_clear_bit (shapeOf n) hwfs t hwft i j (by rw [shapeOf_size]; exact hi),
      naive_is_set_set l i j false (by omega), hab j hj]
    by_cases hji : j = i
    · simp [hji]
    · simp [hji]
  | clearAll =>
    show is_set (shapeOf n) (clear_all (shapeOf n) t) j = naive_is_set (l.map _) j
    rw [is_set_clear_all (shapeOf n) hwfs t hwft j]
    unfold naive_is_set
    rw [getD_map l _ _ _ false (by omega)]

theorem agrees_runOps (n : Nat) (ops : List Op) (h1 : 1 ≤ n)
    (hops : opsInRange n ops) :
    Agrees n (runOps n ops) (naive_runOps n ops) := by
  have hmain : ∀ (ops' : List Op) (t : BTree) (l : List Bool), Inv (shapeOf n) t →
      Agrees n t l → opsInRange n ops' →
      Agrees n (applyOps (shapeOf n) t ops') (ops'.foldl naive_applyOp l) := by
    intro ops'
    induction ops' with
    | nil =>
      intro t l _ hag _
      exact hag
    | cons op rest IH =>
      intro t l hinv hag hops'
      have hop := hops' op (List.mem_cons_self op rest)
      show Agrees n (applyOps (shapeOf n) (applyOp (shapeOf n) t op) rest)
        (rest.foldl naive_applyOp (naive_applyOp l op))
      apply IH _ _ (inv_applyOp (shapeOf n) (wfs_shapeOf n h1) t hinv op
        (by rw [shapeOf_size]; exact hop))
        (agrees_applyOp n h1 t l hinv hag op hop)
        (fun o ho => hops' o (List.mem_cons_of_mem op ho))
  exact hmain ops _ _ (inv_init _ (wfs_shapeOf n h1)) (agrees_init n) hops

/-! ### XOR with a single power of two -/

theorem xor_two_pow_lower (a k : Nat) (h : a < 2 ^ k) : a ^^^ 2 ^ k = a + 2 ^ k := by
  apply Nat.eq_of_testBit_eq
  intro j
  rw [Nat.testBit_xor, Nat.testBit_two_pow, Nat.add_comm a (2 ^ k)]
  rcases Nat.lt_trichotomy j k with hlt | hj | hgt
  · have hkj : ¬ (k = j) := by omega
    simp only [hkj, decide_False, Bool.xor_false]
    rw [Nat.testBit_two_pow_add_gt hlt]
  · subst hj
    have hbit : a.testBit j = false := Nat.testBit_lt_two_pow h
    rw [Nat.testBit_two_pow_add_eq, hbit]
    simp
  · have hkj : ¬ (k = j) := by omega
    simp only [hkj, decide_False, Bool.xor_false]
    have h1 : a.testBit j = false := Nat.testBit_lt_two_pow
      (Nat.lt_trans h (Nat.pow_lt_pow_right (by omega) hgt))
    have h2 : (2 ^ k + a).testBit j = false := by
      apply Nat.testBit_lt_two_pow
      have : (2 : Nat) ^ (k + 1) ≤ 2 ^ j := Nat.pow_le_pow_right (by omega) (by omega)
      have h2k : 2 ^ k + a < 2 ^ (k + 1) := by
        rw [Nat.pow_succ]
        omega
      omega
    rw [h1, h2]

theorem xor_two_pow_upper (x k : Nat) (h1 : 2 ^ k ≤ x) (h2 : x < 2 ^ (k + 1)) :
    x ^^^ 2 ^ k = x - 2 ^ k := by
  have ha : x - 2 ^ k < 2 ^ k := by
    rw [Nat.pow_succ] at h2
    omega
  have hl := xor_two_pow_lower (x - 2 ^ k) k ha
  have hx : (x - 2 ^ k) + 2 ^ k = x := by omega
  rw [hx] at hl
  calc x ^^^ 2 ^ k = ((x - 2 ^ k) ^^^ 2 ^ k) ^^^ 2 ^ k := by rw [hl]
    _ = (x - 2 ^ k) ^^^ (2 ^ k ^^^ 2 ^ k) := Nat.xor_assoc _ _ _
    _ = x - 2 ^ k := by rw [Nat.xor_self, Nat.xor_zero]

/-! ### `tlx::integer_rank<Int>` (`tlx/math/integer_rank.hpp`)

For an unsigned `Int` both maps are the identity
(`use_identity_ = true`); for a signed two's-complement `Int` of `w` bits,
`rank_of_int` reinterprets the value as unsigned
(`static_cast<rank_type>(i)`, i.e. reduction mod `2^w`) and XORs the sign
bit `sign_bit_ = 1 << (w - 1)`; `int_at_rank` XORs the sign bit and
reinterprets as signed. -/

/-- `constexpr static rank_type sign_bit_ = rank_type(1) << (8 * sizeof(rank_type) - 1);` -/
def sign_bit (w : Nat) : Nat := 2 ^ (w - 1)

/-- Signed case of `rank_of_int`: `static_cast<rank_type>(i) ^ sign_bit_`. -/
def rank_of_int_s (w : Nat) (i : Int) : Nat := (i % ((2 : Int) ^ w)).toNat ^^^ sign_bit w

/-- Signed case of `int_at_rank`: `static_cast<int_type>(r ^ sign_bit_)`, the
cast being the two's-complement reinterpretation of a `w`-bit unsigned value. -/
def int_at_rank_s (w : Nat) (r : Nat) : Int :=
  let x := r ^^^ sign_bit w
  if x < 2 ^ (w - 1) then (x : Int) else (x : Int) - 2 ^ w

/-- Unsigned case of `rank_of_int` (`use_identity_`): the cast is the identity
on `[0, 2^w)`. -/
def rank_of_int_u (w : Nat) (i : Nat) : Nat := i % 2 ^ w

/-- Unsigned case of `int_at_rank`. -/
def int_at_rank_u (w : Nat) (r : Nat) : Nat := r % 2 ^ w

theorem rank_of_int_s_eq (w : Nat) (hw : 1 ≤ w) (i : Int)
    (h1 : -((2 : Int) ^ (w - 1)) ≤ i) (h2 : i < (2 : Int) ^ (w - 1)) :
    rank_of_int_s w i = (i + (2 : Int) ^ (w - 1)).toNat := by
  have hsplit : (2 : Int) ^ w = 2 ^ (w - 1) * 2 := by
    rw [← pow_succ]
    congr 1
    omega
  have hMpos : (0 : Int) < 2 ^ (w - 1) := by positivity
  unfold rank_of_int_s sign_bit
  have hnsplit : (2 : Nat) ^ w = 2 ^ (w - 1) * 2 := by
    rw [← pow_succ]
    congr 1
    omega
  by_cases hi : 0 ≤ i
  · have hmod : i % ((2 : Int) ^ w) = i := Int.emod_eq_of_lt hi (by omega)
    rw [hmod]
    have hlt : i.toNat < 2 ^ (w - 1) := by
      have := Int.toNat_of_nonneg hi
      have hcast : ((2 : Nat) ^ (w - 1) : Int) = (2 : Int) ^ (w - 1) := by push_cast; ring
      omega
    rw [xor_two_pow_lower _ _ hlt]
    have hcast : ((2 : Nat) ^ (w - 1) : Int) = (2 : Int) ^ (w - 1) := by push_cast; ring
    omega
  · have hmod : i % ((2 : Int) ^ w) = i + 2 ^ w := by
      have heq : (i + 2 ^ w) % ((2 : Int) ^ w) = i % ((2 : Int) ^ w) := by
        have := Int.add_mul_emod_self_left i ((2 : Int) ^ w) 1
        rw [Int.mul_one] at this
        exact this
      rw [← heq]
      exact Int.emod_eq_of_lt (by omega) (by omega)
    rw [hmod]
    have hcast : ((2 : Nat) ^ (w - 1) : Int) = (2 : Int) ^ (w - 1) := by push_cast; ring
    have hub : (i + 2 ^ w).toNat < 2 ^ (w - 1 + 1) := by
      have hexp : (2 : Nat) ^ (w - 1 + 1) = 2 ^ (w - 1) * 2 := by rw [pow_succ]
      have := Int.toNat_of_nonneg (show (0 : Int) ≤ i + 2 ^ w by omega)
      omega
    have hlb : 2 ^ (w - 1) ≤ (i + 2 ^ w).toNat := by
      have := Int.toNat_of_nonneg (show (0 : Int) ≤ i + 2 ^ w by omega)
      omega
    rw [xor_two_pow_upper _ _ hlb hub]
    have := Int.toNat_of_nonneg (show (0 : Int) ≤ i + 2 ^ w by omega)
    omega

theorem int_at_rank_s_rank (w : Nat) (hw : 1 ≤ w) (i : Int)
    (h1 : -((2 : Int) ^ (w - 1)) ≤ i) (h2 : i < (2 : Int) ^ (w - 1)) :
    int_at_rank_s w (rank_of_int_s w i) = i := by
  have hsplit : (2 : Int) ^ w = 2 ^ (w - 1) * 2 := by
    rw [← pow_succ]
    congr 1
    omega
  have hnsplit : (2 : Nat) ^ w = 2 ^ (w - 1) * 2 := by
    rw [← pow_succ]
    congr 1
    omega
  have hcast : ((2 : Nat) ^ (w - 1) : Int) = (2 : Int) ^ (w - 1) := by push_cast; ring
  have hcastw : ((2 : Nat) ^ w : Int) = (2 : Int) ^ w := by push_cast; ring
  rw [rank_of_int_s_eq w hw i h1 h2]
  unfold int_at_rank_s sign_bit
  have hnn : (0 : Int) ≤ i + 2 ^ (w - 1) := by omega
  have htn := Int.toNat_of_nonneg hnn
  by_cases hi : 0 ≤ i
  · have hlb : 2 ^ (w - 1) ≤ (i + (2 : Int) ^ (w - 1)).toNat := by omega
    have hub : (i + (2 : Int) ^ (w - 1)).toNat < 2 ^ (w - 1 + 1) := by
      have hexp : (2 : Nat) ^ (w - 1 + 1) = 2 ^ (w - 1) * 2 := by rw [pow_succ]
      omega
    rw [xor_two_pow_upper _ _ hlb hub]
    rw [if_pos (by omega)]
    omega
  · have hlt : (i + (2 : Int) ^ (w - 1)).toNat < 2 ^ (w - 1) := by omega
    rw [xor_two_pow_lower _ _ hlt]
    rw [if_neg (by omega)]
    omega

theorem rank_of_int_s_strict_mono (w : Nat) (hw : 1 ≤ w) (x y : Int)
    (hx : -((2 : Int) ^ (w - 1)) ≤ x) (hy : y < (2 : Int) ^ (w - 1)) (hxy : x < y) :
    rank_of_int_s w x < rank_of_int_s w y := by
  have hcast : ((2 : Nat) ^ (w - 1) : Int) = (2 : Int) ^ (w - 1) := by push_cast; ring
  rw [rank_of_int_s_eq w hw x hx (by omega), rank_of_int_s_eq w hw y (by omega) hy]
  have h1 := Int.toNat_of_nonneg (show (0 : Int) ≤ x + 2 ^ (w - 1) by omega)
  have h2 := Int.toNat_of_nonneg (show (0 : Int) ≤ y + 2 ^ (w - 1) by omega)
  omega

/-! ### `tlx::full_mul` (`tlx/math/full_mul.hpp`)

`w` is the bit width of the operand type `T`; every C++ arithmetic operation
on `T` is modelled with an explicit reduction `% 2 ^ w`.  `4 * sizeof(T)`
is `w / 2` bits. -/

/-- `auto lo = [](T x) { return x & ((T(1) << (4 * sizeof(T))) - 1); };` -/
def fm_lo (w x : Nat) : Nat := x &&& ((1 <<< (w / 2)) - 1)

/-- `auto hi = [](T x) { return x >> (4 * sizeof(T)); };` -/
def fm_hi (w x : Nat) : Nat := x >>> (w / 2)

/-- `details::full_mul_generic<T>`: the pencil-and-paper multiplication on
half-words, all intermediate values truncated to `w` bits as in `T`. -/
def full_mul_generic (w a b : Nat) : Nat × Nat :=
  let a_lo := fm_lo w a
  let a_hi := fm_hi w a
  let b_lo := fm_lo w b
  let b_hi := fm_hi w b
  let albl := a_lo * b_lo % 2 ^ w
  let albh := a_lo * b_hi % 2 ^ w
  let ahbl := a_hi * b_lo % 2 ^ w
  let ahbh := a_hi * b_hi % 2 ^ w
  let carry := fm_hi w ((fm_lo w albh + fm_lo w ahbl + fm_hi w albl) % 2 ^ w)
  ((ahbh + fm_hi w ahbl + fm_hi w albh + carry) % 2 ^ w,
   (albl + ((fm_lo w ahbl + fm_lo w albh) <<< (w / 2)) % 2 ^ w) % 2 ^ w)

/-- The widening-cast overloads `full_mul(uintN_t, uintN_t)`: multiply in the
double-width type (`2 * w` bits) and split into high and low halves. -/
def full_mul (w a b : Nat) : Nat × Nat :=
  let m := a * b % 2 ^ (2 * w)
  (m >>> w % 2 ^ w, m % 2 ^ w)

/-- `full_mul_ce`: `return details::full_mul_generic(a, b);` on `uint64_t`. -/
def full_mul_ce (a b : Nat) : Nat × Nat := full_mul_generic 64 a b

theorem fm_lo_eq (w x : Nat) : fm_lo w x = x % 2 ^ (w / 2) := by
  unfold fm_lo
  rw [Nat.one_shiftLeft, Nat.and_pow_two_sub_one_eq_mod]

theorem fm_hi_eq (w x : Nat) : fm_hi w x = x / 2 ^ (w / 2) := by
  unfold fm_hi
  rw [Nat.shiftRight_eq_div_pow]

theorem add_mul_mod_sq (B m t : Nat) (hB : 0 < B) (hm : m < B) :
    (m + B * t) % (B * B) = m + B * (t % B) := by
  conv_lhs => rw [show t = B * (t / B) + t % B from (Nat.div_add_mod t B).symm]
  have hre : m + B * (B * (t / B) + t % B) = (m + B * (t % B)) + (B * B) * (t / B) := by
    ring
  rw [hre, Nat.add_mul_mod_self_left]
  apply Nat.mod_eq_of_lt
  have h1 : t % B < B := Nat.mod_lt t hB
  have h2 : B * (t % B) ≤ B * (B - 1) := Nat.mul_le_mul_left B (by omega)
  have h3 : B * (B - 1) + B = B * B := by
    rw [← Nat.mul_succ]
    congr 1
    omega
  omega

/-- The central algebraic identity behind `full_mul_generic`: splitting both
operands at a half-word boundary `B` and recombining with the carry. -/
theorem mul_split_identity (B a b : Nat) (_hB : 0 < B) :
    a * b
      = B * B * (a / B * (b / B) + a % B * (b / B) / B + a / B * (b % B) / B
          + (a % B * (b / B) % B + a / B * (b % B) % B + a % B * (b % B) / B) / B)
        + B * ((a % B * (b / B) % B + a / B * (b % B) % B + a % B * (b % B) / B) % B)
        + a % B * (b % B) % B := by
  have e1 : B * (a / B) + a % B = a := Nat.div_add_mod a B
  have e2 : B * (b / B) + b % B = b := Nat.div_add_mod b B
  have ep1 : B * (a % B * (b % B) / B) + a % B * (b % B) % B = a % B * (b % B) :=
    Nat.div_add_mod _ B
  have ep2 : B * (a % B * (b / B) / B) + a % B * (b / B) % B = a % B * (b / B) :=
    Nat.div_add_mod _ B
  have ep3 : B * (a / B * (b % B) / B) + a / B * (b % B) % B = a / B * (b % B) :=
    Nat.div_add_mod _ B
  have eS : B * ((a % B * (b / B) % B + a / B * (b % B) % B + a % B * (b % B) / B) / B)
      + (a % B * (b / B) % B + a / B * (b % B) % B + a % B * (b % B) / B) % B
      = a % B * (b / B) % B + a / B * (b % B) % B + a % B * (b % B) / B :=
    Nat.div_add_mod _ B
  calc a * b
      = (B * (a / B) + a % B) * (B * (b / B) + b % B) := by rw [e1, e2]
    _ = B * B * (a / B * (b / B)) + B * (a % B * (b / B)) + B * (a / B * (b % B))
        + a % B * (b % B) := by ring
    _ = B * B * (a / B * (b / B))
        + B * (B * (a % B * (b / B) / B) + a % B * (b / B) % B)
        + B * (B * (a / B * (b % B) / B) + a / B * (b % B) % B)
        + (B * (a % B * (b % B) / B) + a % B * (b % B) % B) := by rw [ep1, ep2, ep3]
    _ = B * B * (a / B * (b / B) + a % B * (b / B) / B + a / B * (b % B) / B)
        + B * (a % B * (b / B) % B + a / B * (b % B) % B + a % B * (b % B) / B)
        + a % B * (b % B) % B := by ring
    _ = B * B * (a / B * (b / B) + a % B * (b / B) / B + a / B * (b % B) / B)
        + B * (B * ((a % B * (b / B) % B + a / B * (b % B) % B + a % B * (b % B) / B) / B)
          + (a % B * (b / B) % B + a / B * (b % B) % B + a % B * (b % B) / B) % B)
        + a % B * (b % B) % B := by rw [eS]
    _ = B * B * (a / B * (b / B) + a % B * (b / B) / B + a / B * (b % B) / B
          + (a % B * (b / B) % B + a / B * (b % B) % B + a % B * (b % B) / B) / B)
        + B * ((a % B * (b / B) % B + a / B * (b % B) % B + a % B * (b % B) / B) % B)
        + a % B * (b % B) % B := by ring

theorem full_mul_generic_eq (w a b : Nat) (hw : 4 ≤ w) (he : w % 2 = 0)
    (ha : a < 2 ^ w) (hb : b < 2 ^ w) :
    full_mul_generic w a b = (a * b / 2 ^ w, a * b % 2 ^ w) := by
  have hW : (2 : Nat) ^ w = 2 ^ (w / 2) * 2 ^ (w / 2) := by
    rw [← pow_add]
    congr 1
    omega
  set B := 2 ^ (w / 2) with hBdef
  have hB4 : 4 ≤ B := by
    have h22 : (2 : Nat) ^ 2 ≤ 2 ^ (w / 2) := Nat.pow_le_pow_right (by omega) (by omega)
    norm_num at h22
    omega
  have hBpos : 0 < B := by omega
  have haB : a < B * B := by rw [← hW]; exact ha
  have hbB : b < B * B := by rw [← hW]; exact hb
  have halB : a % B < B := Nat.mod_lt a hBpos
  have hblB : b % B < B := Nat.mod_lt b hBpos
  have hahB : a / B < B := Nat.div_lt_of_lt_mul haB
  have hbhB : b / B < B := Nat.div_lt_of_lt_mul hbB
  have hp1 : a % B * (b % B) < B * B :=
    mul_lt_mul'' halB hblB (Nat.zero_le _) (Nat.zero_le _)
  have hp2 : a % B * (b / B) < B * B :=
    mul_lt_mul'' halB hbhB (Nat.zero_le _) (Nat.zero_le _)
  have hp3 : a / B * (b % B) < B * B :=
    mul_lt_mul'' hahB hblB (Nat.zero_le _) (Nat.zero_le _)
  have hp4 : a / B * (b / B) < B * B :=
    mul_lt_mul'' hahB hbhB (Nat.zero_le _) (Nat.zero_le _)
  have hS3 : a % B * (b / B) % B + a / B * (b % B) % B + a % B * (b % B) / B
      < B * B := by
    have m2 : a % B * (b / B) % B < B := Nat.mod_lt _ hBpos
    have m3 : a / B * (b % B) % B < B := Nat.mod_lt _ hBpos
    have d1 : a % B * (b % B) / B < B := Nat.div_lt_of_lt_mul hp1
    have h3B : 3 * B ≤ B * B := Nat.mul_le_mul_right B (by omega)
    omega
  have key := mul_split_identity B a b hBpos
  have hSlt : (a % B * (b / B) % B + a / B * (b % B) % B + a % B * (b % B) / B) % B
      < B := Nat.mod_lt _ hBpos
  have hm1lt : a % B * (b % B) % B < B := Nat.mod_lt _ hBpos
  have hsmall : B * ((a % B * (b / B) % B + a / B * (b % B) % B
        + a % B * (b % B) / B) % B) + a % B * (b % B) % B < B * B := by
    have h2 : B * ((a % B * (b / B) % B + a / B * (b % B) % B
        + a % B * (b % B) / B) % B) ≤ B * (B - 1) :=
      Nat.mul_le_mul_left B (by omega)
    have h3 : B * (B - 1) + B = B * B := by
      rw [← Nat.mul_succ]
      congr 1
      omega
    omega
  have hrearr : a * b
      = (B * ((a % B * (b / B) % B + a / B * (b % B) % B
            + a % B * (b % B) / B) % B) + a % B * (b % B) % B)
        + (B * B) * (a / B * (b / B) + a % B * (b / B) / B + a / B * (b % B) / B
          + (a % B * (b / B) % B + a / B * (b % B) % B + a % B * (b % B) / B) / B) := by
    omega
  have hmod2 : a * b % (B * B)
      = B * ((a % B * (b / B) % B + a / B * (b % B) % B
          + a % B * (b % B) / B) % B) + a % B * (b % B) % B := by
    rw [hrearr, Nat.add_mul_mod_self_left]
    exact Nat.mod_eq_of_lt hsmall
  have hdiv2 : a * b / (B * B)
      = a / B * (b / B) + a % B * (b / B) / B + a / B * (b % B) / B
        + (a % B * (b / B) % B + a / B * (b % B) % B + a % B * (b % B) / B) / B := by
    rw [hrearr, Nat.add_mul_div_left _ _ (by positivity)]
    rw [Nat.div_eq_of_lt hsmall, Nat.zero_add]
  have hQlt : a / B * (b / B) + a % B * (b / B) / B + a / B * (b % B) / B
      + (a % B * (b / B) % B + a / B * (b % B) % B + a % B * (b % B) / B) / B
      < B * B := by
    rw [← hdiv2]
    apply Nat.div_lt_of_lt_mul
    calc a * b < (B * B) * (B * B) :=
          mul_lt_mul'' haB hbB (Nat.zero_le _) (Nat.zero_le _)
      _ = B * B * (B * B) := rfl
  unfold full_mul_generic
  simp only [fm_lo_eq, fm_hi_eq, Nat.shiftLeft_eq, ← hBdef, hW]
  rw [Nat.mod_eq_of_lt hp1, Nat.mod_eq_of_lt hp2, Nat.mod_eq_of_lt hp3,
    Nat.mod_eq_of_lt hp4]
  rw [Nat.mod_eq_of_lt hS3]
  rw [Prod.mk.injEq]
  constructor
  · rw [hdiv2]
    have hcomm : a / B * (b / B) + a / B * (b % B) / B + a % B * (b / B) / B
        + (a % B * (b / B) % B + a / B * (b % B) % B + a % B * (b % B) / B) / B
        = a / B * (b / B) + a % B * (b / B) / B + a / B * (b % B) / B
          + (a % B * (b / B) % B + a / B * (b % B) % B + a % B * (b % B) / B) / B := by
      ring
    rw [hcomm]
    exact Nat.mod_eq_of_lt hQlt
  · rw [hmod2]
    rw [Nat.mul_mod_mul_right]
    have hsec : a % B * (b % B) + (a / B * (b % B) % B + a % B * (b / B) % B) % B * B
        = a % B * (b % B) % B
          + B * (a % B * (b % B) / B + (a / B * (b % B) % B + a % B * (b / B) % B) % B) := by
      conv_lhs => rw [show a % B * (b % B)
        = B * (a % B * (b % B) / B) + a % B * (b % B) % B from
          (Nat.div_add_mod _ B).symm]
      ring
    rw [hsec, add_mul_mod_sq B _ _ hBpos hm1lt]
    have hmm : (a % B * (b % B) / B + (a / B * (b % B) % B + a % B * (b / B) % B) % B) % B
        = (a % B * (b / B) % B + a / B * (b % B) % B + a % B * (b % B) / B) % B := by
      conv_lhs => rw [Nat.add_mod_mod]
      have : a % B * (b % B) / B + (a / B * (b % B) % B + a % B * (b / B) % B)
          = a % B * (b / B) % B + a / B * (b % B) % B + a % B * (b % B) / B := by ring
      rw [this]
    rw [hmm]
    omega

theorem full_mul_eq (w a b : Nat) (ha : a < 2 ^ w) (hb : b < 2 ^ w) :
    full_mul w a b = (a * b / 2 ^ w, a * b % 2 ^ w) := by
  have hdw : (2 : Nat) ^ (2 * w) = 2 ^ w * 2 ^ w := by
    rw [← pow_add]
    congr 1
    omega
  have hab : a * b < 2 ^ (2 * w) := by
    rw [hdw]
    exact mul_lt_mul'' ha hb (Nat.zero_le _) (Nat.zero_le _)
  unfold full_mul
  simp only [Nat.shiftRight_eq_div_pow]
  rw [Nat.mod_eq_of_lt hab, Prod.mk.injEq]
  constructor
  · apply Nat.mod_eq_of_lt
    apply Nat.div_lt_of_lt_mul
    rw [← hdw]
    exact hab
  · rfl

/-! ### Supporting definitions for the claims -/

theorem bool_eq_of_iff {a b : Bool} (h : a = true ↔ b = true) : a = b := by
  cases a <;> cases b <;> simp_all

/-- The summary-soundness predicate exactly as the specification states it:
at every inner node, if any bit in child `k`'s range is set then summary
bit `k` is set, recursively at every level. -/
def SummarySound : Shape → BTree → Prop
  | .leaf _, _ => True
  | .inner _ cSh rs, .inner ch rt =>
      (∀ k, k < rs →
        (∃ j, j < cSh.size ∧ is_set cSh (ch.getD k defaultChild) j = true) →
        rt.testBit k = true) ∧
      ∀ k, k < rs → SummarySound cSh (ch.getD k defaultChild)
  | _, _ => True

theorem summary_sound_of_inv (sh : Shape) (hwfs : WFS sh) :
    ∀ t, WFT sh t → Exact sh t → SummarySound sh t := by
  induction sh with
  | leaf s =>
    intro t _ _
    trivial
  | inner s cSh rs IH =>
    intro t hwft hex
    obtain ⟨hs, hrs1, hrs64, hcs, hcover, hfull⟩ := wfs_inner_elim hwfs
    obtain ⟨ch, rt, rfl, hlen, hrt, hch⟩ := wft_inner_inv hwft
    obtain ⟨hex1, hex2⟩ := hex
    refine ⟨?_, ?_⟩
    · rintro k hk ⟨j, _, hset⟩
      rw [hex1 k hk]
      suffices hemp : empty_b cSh (ch.getD k defaultChild) = false by
        rw [hemp]
        rfl
      cases hemp : empty_b cSh (ch.getD k defaultChild) with
      | false => rfl
      | true =>
        have hnone := (empty_iff cSh (FullS.toWFS hfull) _ (hch k hk) (hex2 k hk)).mp
          hemp j
        rw [hset] at hnone
        exact absurd hnone (by simp)
    · intro k hk
      exact IH (FullS.toWFS hfull) _ (hch k hk) (hex2 k hk)

/-- `std::swap` on two `bitarray<Size>` instances: the wrapper has defaulted
move construction and assignment, so the generic swap exchanges the whole
internal representation `impl_`.  Equal declared capacity is enforced by the
type (both arguments share one shape). -/
def bitarray_swap (a b : BTree) : BTree × BTree := (b, a)

/-! ### The claims -/

/-- C1: for every capacity and every reachable non-empty state of the bit
array, `find_lsb()` returns an index that is set and below which no index is
set. -/
theorem find_lsb_exact (n : Nat) (ops : List Op) (h1 : 1 ≤ n)
    (hops : opsInRange n ops)
    (hne : empty_b (shapeOf n) (runOps n ops) = false) :
    is_set (shapeOf n) (runOps n ops) (find_lsb (shapeOf n) (runOps n ops)) = true ∧
    ∀ j, j < find_lsb (shapeOf n) (runOps n ops) →
      is_set (shapeOf n) (runOps n ops) j = false := by
  obtain ⟨hwft, hex, hnp⟩ := inv_runOps n ops h1 hops
  obtain ⟨_, h2, h3⟩ := find_lsb_spec_top (shapeOf n) (wfs_shapeOf n h1) _ hwft hex
    hnp hne
  exact ⟨h2, h3⟩

theorem find_lsb_exact_witness :
    (1 ≤ 70 ∧ opsInRange 70 [Op.set 64, Op.set 67] ∧
      empty_b (shapeOf 70) (runOps 70 [Op.set 64, Op.set 67]) = false) ∧
    (is_set (shapeOf 70) (runOps 70 [Op.set 64, Op.set 67])
        (find_lsb (shapeOf 70) (runOps 70 [Op.set 64, Op.set 67])) = true ∧
      ∀ j, j < find_lsb (shapeOf 70) (runOps 70 [Op.set 64, Op.set 67]) →
        is_set (shapeOf 70) (runOps 70 [Op.set 64, Op.set 67]) j = false) :=
  ⟨⟨by decide, by decide, by decide⟩,
    find_lsb_exact 70 [Op.set 64, Op.set 67] (by decide) (by decide) (by decide)⟩

/-- C2: summary soundness holds in every reachable state: it holds after
construction (empty operation sequence) and is preserved by every in-range
`set_bit`, `clear_bit` and `clear_all` (arbitrary operation sequence). -/
theorem summary_soundness (n : Nat) (ops : List Op) (h1 : 1 ≤ n)
    (hops : opsInRange n ops) : SummarySound (shapeOf n) (runOps n ops) := by
  obtain ⟨hwft, hex, _⟩ := inv_runOps n ops h1 hops
  exact summary_sound_of_inv (shapeOf n) (wfs_shapeOf n h1) _ hwft hex

theorem summary_soundness_witness :
    (1 ≤ 70 ∧ opsInRange 70 [Op.set 64, Op.clear 64, Op.set 3]) ∧
    SummarySound (shapeOf 70) (runOps 70 [Op.set 64, Op.clear 64, Op.set 3]) :=
  ⟨⟨by decide, by decide⟩,
    summary_soundness 70 [Op.set 64, Op.clear 64, Op.set 3] (by decide) (by decide)⟩

/-- C3: the bit array refines the naive boolean-array reference
implementation: after the same in-range operation sequence applied to both,
`is_set` agrees on every in-range index, `empty()` agrees, and `find_lsb()`
agrees whenever both are non-empty. -/
theorem bitarray_refines_naive (n : Nat) (ops : List Op) (h1 : 1 ≤ n)
    (hops : opsInRange n ops) :
    (∀ i, i < n → is_set (shapeOf n) (runOps n ops) i
        = naive_is_set (naive_runOps n ops) i) ∧
    empty_b (shapeOf n) (runOps n ops) = naive_empty (naive_runOps n ops) ∧
    (empty_b (shapeOf n) (runOps n ops) = false →
      naive_empty (naive_runOps n ops) = false →
      find_lsb (shapeOf n) (runOps n ops) = naive_find_lsb (naive_runOps n ops)) := by
  obtain ⟨hwft, hex, hnp⟩ := inv_runOps n ops h1 hops
  obtain ⟨hlen, hab⟩ := agrees_runOps n ops h1 hops
  have hwfs := wfs_shapeOf n h1
  refine ⟨hab, ?_, ?_⟩
  · apply bool_eq_of_iff
    rw [empty_iff (shapeOf n) hwfs _ hwft hex, naive_empty_iff]
    constructor
    · intro hAll i hi
      rw [hlen] at hi
      rw [← hab i hi]
      exact hAll i
    · intro hN i
      by_cases hi : i < n
      · rw [hab i hi]
        exact hN i (by omega)
      · exact hnp i (by rw [shapeOf_size]; omega)
  · intro hne hnne
    obtain ⟨_, hset, hmin⟩ := find_lsb_spec_top (shapeOf n) hwfs _ hwft hex hnp hne
    obtain ⟨hmlt, hmset, hmmin⟩ := naive_find_lsb_spec _ hnne
    have hmltn : naive_find_lsb (naive_runOps n ops) < n := by omega
    have hle : find_lsb (shapeOf n) (runOps n ops)
        ≤ naive_find_lsb (naive_runOps n ops) := by
      by_contra hc
      have hz := hmin _ (show naive_find_lsb (naive_runOps n ops) < _ by omega)
      rw [hab _ hmltn, hmset] at hz
      exact absurd hz (by simp)
    have hflt : find_lsb (shapeOf n) (runOps n ops) < n := by omega
    have hset' : naive_is_set (naive_runOps n ops)
        (find_lsb (shapeOf n) (runOps n ops)) = true := by
      rw [← hab _ hflt]
      exact hset
    have hge : naive_find_lsb (naive_runOps n ops)
        ≤ find_lsb (shapeOf n) (runOps n ops) := by
      by_contra hc
      have hz := hmmin _ (show find_lsb (shapeOf n) (runOps n ops) < _ by omega)
      rw [hset'] at hz
      exact absurd hz (by simp)
    omega

theorem bitarray_refines_naive_witness :
    (1 ≤ 70 ∧ opsInRange 70 [Op.set 5, Op.set 66, Op.clear 5]) ∧
    ((∀ i, i < 70 → is_set (shapeOf 70) (runOps 70 [Op.set 5, Op.set 66, Op.clear 5]) i
        = naive_is_set (naive_runOps 70 [Op.set 5, Op.set 66, Op.clear 5]) i) ∧
      empty_b (shapeOf 70) (runOps 70 [Op.set 5, Op.set 66, Op.clear 5])
        = naive_empty (naive_runOps 70 [Op.set 5, Op.set 66, Op.clear 5]) ∧
      (empty_b (shapeOf 70) (runOps 70 [Op.set 5, Op.set 66, Op.clear 5]) = false →
        naive_empty (naive_runOps 70 [Op.set 5, Op.set 66, Op.clear 5]) = false →
        find_lsb (shapeOf 70) (runOps 70 [Op.set 5, Op.set 66, Op.clear 5])
          = naive_find_lsb (naive_runOps 70 [Op.set 5, Op.set 66, Op.clear 5]))) :=
  ⟨⟨by decide, by decide⟩,
    bitarray_refines_naive 70 [Op.set 5, Op.set 66, Op.clear 5] (by decide) (by decide)⟩

/-- C4: the shape-selection rule: `width = ceil(log2 c)` (characterized by
`c ≤ 2 ^ m ↔ width c ≤ m` and equal to Mathlib's ceiling logarithm),
`leaf_width = 6`, `root_width = width mod 6` or `6` when that remainder is
zero, `child_width = width - root_width`, each child covers
`2 ^ child_width` indices, the number of children is the ceiling of
`c / 2 ^ child_width`, and a node's capacity selects the leaf implementation
exactly when `width ≤ leaf_width`. -/
theorem shape_selection_rule (c : Nat) (h64 : 64 < c) :
    (∀ m, c ≤ 2 ^ m ↔ width c ≤ m) ∧
    width c = Nat.clog 2 c ∧
    root_width c
      = (if width c % leaf_width = 0 then leaf_width else width c % leaf_width) ∧
    child_size c = 2 ^ (width c - root_width c) ∧
    root_size c = div_ceil c (child_size c) ∧
    shapeOf c = Shape.inner c (shapeOf (child_size c)) (root_size c) ∧
    c ≤ child_size c * root_size c ∧
    child_size c * (root_size c - 1) < c ∧
    (∀ d, 1 ≤ d → ((∃ s, shapeOf d = Shape.leaf s) ↔ width d ≤ leaf_width)) := by
  refine ⟨?_, clog2_eq_clog c, ?_, rfl, rfl, shapeOf_inner c h64, ?_, ?_, ?_⟩
  · intro m
    exact (clog2_le_iff c m).symm
  · unfold root_width
    by_cases hz : width c % leaf_width = 0
    · rw [if_pos hz, if_neg (by omega)]
    · rw [if_neg hz, if_pos hz]
  · exact (div_ceil_spec c (child_size c) (child_size_pos c)).1
  · exact (div_ceil_spec c (child_size c) (child_size_pos c)).2 (by omega)
  · intro d hd
    constructor
    · rintro ⟨s, hs⟩
      by_contra hc
      have hd64 : 64 < d := by
        by_contra hc2
        have hw6 : width d ≤ 6 := by
          show clog2 d ≤ 6
          rw [clog2_le_iff]
          norm_num
          omega
        unfold leaf_width at hc
        omega
      rw [shapeOf_inner d hd64] at hs
      exact Shape.noConfusion hs
    · intro hw6
      have hd64 : d ≤ 64 := by
        have hle := (clog2_le_iff d 6).mp (by unfold leaf_width at hw6; exact hw6)
        norm_num at hle
        omega
      exact ⟨d, shapeOf_leaf d hd64⟩

theorem shape_selection_rule_witness :
    (64 < 100) ∧
    ((∀ m, 100 ≤ 2 ^ m ↔ width 100 ≤ m) ∧
      width 100 = Nat.clog 2 100 ∧
      root_width 100
        = (if width 100 % leaf_width = 0 then leaf_width else width 100 % leaf_width) ∧
      child_size 100 = 2 ^ (width 100 - root_width 100) ∧
      root_size 100 = div_ceil 100 (child_size 100) ∧
      shapeOf 100 = Shape.inner 100 (shapeOf (child_size 100)) (root_size 100) ∧
      100 ≤ child_size 100 * root_size 100 ∧
      child_size 100 * (root_size 100 - 1) < 100 ∧
      (∀ d, 1 ≤ d → ((∃ s, shapeOf d = Shape.leaf s) ↔ width d ≤ leaf_width))) :=
  ⟨by decide, shape_selection_rule 100 (by decide)⟩

/-- C5 counterexample: at capacity 65 the node has 2 children but its summary
node is declared with capacity 32 (`root_size <= 32 ? 32 : 64`), not 2; the
summary's capacity does not equal the number of children. -/
theorem summary_capacity_cex :
    shapeOf 65 = Shape.inner 65 (Shape.leaf 64) 2 ∧
    root_size 65 = 2 ∧
    root_cap (root_size 65) = 32 ∧
    ¬ (root_cap (root_size 65) = root_size 65) := by decide

/-- C5 (amended): for every inner node the summary is a single leaf whose
declared capacity is 32 if the child count is at most 32 and 64 otherwise;
the child count never exceeds 64, so the summary always suffices and is never
itself an inner node. -/
theorem summary_capacity_amended (c : Nat) (h64 : 64 < c) :
    root_size c ≤ 64 ∧
    root_cap (root_size c) = (if root_size c ≤ 32 then 32 else 64) ∧
    root_size c ≤ root_cap (root_size c) ∧
    (root_cap (root_size c) = 32 ∨ root_cap (root_size c) = 64) := by
  have h := root_size_le_64 c h64
  refine ⟨h, rfl, ?_, ?_⟩
  · unfold root_cap
    by_cases h32 : root_size c ≤ 32
    · rw [if_pos h32]
      omega
    · rw [if_neg h32]
      omega
  · unfold root_cap
    by_cases h32 : root_size c ≤ 32
    · rw [if_pos h32]
      exact Or.inl rfl
    · rw [if_neg h32]
      exact Or.inr rfl

theorem summary_capacity_amended_witness :
    (64 < 65) ∧
    (root_size 65 ≤ 64 ∧
      root_cap (root_size 65) = (if root_size 65 ≤ 32 then 32 else 64) ∧
      root_size 65 ≤ root_cap (root_size 65) ∧
      (root_cap (root_size 65) = 32 ∨ root_cap (root_size 65) = 64)) :=
  ⟨by decide, summary_capacity_amended 65 (by decide)⟩

/-- C6: after `clear_all()` on any reachable state, `empty()` is true and no
in-range index is set. -/
theorem clear_all_exact (n : Nat) (ops : List Op) (h1 : 1 ≤ n)
    (hops : opsInRange n ops) :
    empty_b (shapeOf n) (clear_all (shapeOf n) (runOps n ops)) = true ∧
    ∀ i, i < n → is_set (shapeOf n) (clear_all (shapeOf n) (runOps n ops)) i = false := by
  obtain ⟨hwft, _, _⟩ := inv_runOps n ops h1 hops
  exact ⟨empty_b_clear_all _ _,
    fun i _ => is_set_clear_all _ (wfs_shapeOf n h1) _ hwft i⟩

theorem clear_all_exact_witness :
    (1 ≤ 70 ∧ opsInRange 70 [Op.set 69, Op.set 0]) ∧
    (empty_b (shapeOf 70) (clear_all (shapeOf 70) (runOps 70 [Op.set 69, Op.set 0]))
        = true ∧
      ∀ i, i < 70 →
        is_set (shapeOf 70) (clear_all (shapeOf 70) (runOps 70 [Op.set 69, Op.set 0])) i
          = false) :=
  ⟨⟨by decide, by decide⟩,
    clear_all_exact 70 [Op.set 69, Op.set 0] (by decide) (by decide)⟩

/-- C7: a freshly constructed instance of any capacity is empty and every
in-range index reads false. -/
theorem fresh_instance_cleared (n : Nat) :
    empty_b (shapeOf n) (initTree (shapeOf n)) = true ∧
    ∀ i, i < n → is_set (shapeOf n) (initTree (shapeOf n)) i = false :=
  ⟨empty_b_init _, fun i _ => is_set_init _ i⟩

/-- C8: swapping two same-capacity bit arrays exchanges the observable bit
patterns: after the swap, the first holds the pre-swap pattern of the second
and vice versa, at every index. -/
theorem swap_exact (sh : Shape) (a b : BTree) :
    (∀ i, is_set sh (bitarray_swap a b).1 i = is_set sh b i) ∧
    (∀ i, is_set sh (bitarray_swap a b).2 i = is_set sh a i) :=
  ⟨fun _ => rfl, fun _ => rfl⟩

/-- C9: `integer_rank`: for a signed two's-complement `w`-bit type,
`int_at_rank (rank_of_int i) = i` on the whole value range and `rank_of_int`
is strictly order-preserving; for an unsigned type both maps are the identity
(hence also a strictly monotone bijection). -/
theorem integer_rank_spec (w : Nat) (hw : 1 ≤ w) :
    (∀ i : Int, -((2 : Int) ^ (w - 1)) ≤ i → i < (2 : Int) ^ (w - 1) →
      int_at_rank_s w (rank_of_int_s w i) = i) ∧
    (∀ x y : Int, -((2 : Int) ^ (w - 1)) ≤ x → y < (2 : Int) ^ (w - 1) → x < y →
      rank_of_int_s w x < rank_of_int_s w y) ∧
    (∀ a : Nat, a < 2 ^ w → int_at_rank_u w (rank_of_int_u w a) = a) ∧
    (∀ a b : Nat, b < 2 ^ w → a < b → rank_of_int_u w a < rank_of_int_u w b) := by
  refine ⟨fun i h1 h2 => int_at_rank_s_rank w hw i h1 h2,
    fun x y hx hy hxy => rank_of_int_s_strict_mono w hw x y hx hy hxy, ?_, ?_⟩
  · intro a haw
    unfold int_at_rank_u rank_of_int_u
    rw [Nat.mod_eq_of_lt haw, Nat.mod_eq_of_lt haw]
  · intro a b hbw hab
    unfold rank_of_int_u
    rw [Nat.mod_eq_of_lt (by omega), Nat.mod_eq_of_lt hbw]
    exact hab

theorem integer_rank_spec_witness :
    (1 ≤ 8) ∧
    ((∀ i : Int, -((2 : Int) ^ (8 - 1)) ≤ i → i < (2 : Int) ^ (8 - 1) →
        int_at_rank_s 8 (rank_of_int_s 8 i) = i) ∧
      (∀ x y : Int, -((2 : Int) ^ (8 - 1)) ≤ x → y < (2 : Int) ^ (8 - 1) → x < y →
        rank_of_int_s 8 x < rank_of_int_s 8 y) ∧
      (∀ a : Nat, a < 2 ^ 8 → int_at_rank_u 8 (rank_of_int_u 8 a) = a) ∧
      (∀ a b : Nat, b < 2 ^ 8 → a < b → rank_of_int_u 8 a < rank_of_int_u 8 b)) :=
  ⟨by decide, integer_rank_spec 8 (by decide)⟩

/-- C10: `full_mul`: for every unsigned `w`-bit type (`w` even, at least 4),
`full_mul(a, b)` returns the exact double-width product split as
`a * b = first * 2^w + second` with `second < 2^w`, and `full_mul_generic`
computes the same pair as the widening-cast overloads (and `full_mul_ce`
equals `full_mul_generic` at 64 bits). -/
theorem full_mul_spec (w a b : Nat) (hw : 4 ≤ w) (he : w % 2 = 0)
    (ha : a < 2 ^ w) (hb : b < 2 ^ w) :
    a * b = (full_mul w a b).1 * 2 ^ w + (full_mul w a b).2 ∧
    (full_mul w a b).2 < 2 ^ w ∧
    full_mul_generic w a b = full_mul w a b ∧
    full_mul_ce a b = full_mul_generic 64 a b := by
  have hg := full_mul_generic_eq w a b hw he ha hb
  have hf := full_mul_eq w a b ha hb
  have hdm := Nat.div_add_mod (a * b) (2 ^ w)
  refine ⟨?_, ?_, ?_, rfl⟩
  · rw [hf]
    show a * b = a * b / 2 ^ w * 2 ^ w + a * b % 2 ^ w
    have hc : a * b / 2 ^ w * 2 ^ w = 2 ^ w * (a * b / 2 ^ w) := Nat.mul_comm _ _
    omega
  · rw [hf]
    show a * b % 2 ^ w < 2 ^ w
    exact Nat.mod_lt _ (Nat.two_pow_pos w)
  · rw [hg, hf]

theorem full_mul_spec_witness :
    (4 ≤ 8 ∧ 8 % 2 = 0 ∧ 200 < 2 ^ 8 ∧ 123 < 2 ^ 8) ∧
    (200 * 123 = (full_mul 8 200 123).1 * 2 ^ 8 + (full_mul 8 200 123).2 ∧
      (full_mul 8 200 123).2 < 2 ^ 8 ∧
      full_mul_generic 8 200 123 = full_mul 8 200 123 ∧
      full_mul_ce 200 123 = full_mul_generic 64 200 123) :=
  ⟨⟨by decide, by decide, by decide, by decide⟩,
    full_mul_spec 8 200 123 (by decide) (by decide) (by decide) (by decide)⟩

end Tlx
